import Mathlib

/-!
# Verification of the boolean query-evaluation iterator subsystem and the
# generic hardware-acceleration kernels

Two groups of definitions:

* The lazy boolean search-iterator tree (`SIter`), its composite
  constructors, the fused multi-bit-vector rewrite (`MultiBitVectorIteratorBase.optimize`),
  unpack dispatch and the id/ref diagnostics string.  The C++ implementation of
  this subsystem (searchlib/queryeval) is not part of the excerpted sources;
  only its regression test
  (`src/searchlib/src/tests/queryeval/multibitvectoriterator/multibitvectoriterator_test.cpp`)
  is.  All definitions in this group are therefore modelled from the
  specification, with the behaviour pinned down by that test where the two
  disagree.  Each such definition carries a `Modelled from the spec:` comment.

* A shallow embedding of `generic-inl.hpp`
  (`src/vespalib/src/vespa/vespalib/hwaccelerated/generic-inl.hpp`): the
  unrolled `multiplyAdd` kernel behind the integer `dotProduct` overloads, and
  the word-plus-byte-tail `bitOperation` / `notBit` kernels.  Machine integers
  are modelled as `Int`/`Nat` with explicit reduction modulo `2 ^ w`.
-/

/-- Step-one `List.range'` splits at any midpoint. -/
theorem range1_append (s m n : Nat) :
    List.range' s m ++ List.range' (s + m) n = List.range' s (m + n) := by
  have h := List.range'_append s m n 1
  rw [Nat.one_mul] at h
  rw [Nat.add_comm n m] at h
  exact h

namespace Vespa

/-- Modelled from the spec: `UnpackInfo` — a per-composite record of which
child indices require unpack-on-hit.  States per the data model: an explicit
subset of indices (an empty subset meaning "none"), or "force all". -/
inductive UnpackInfo where
  | all : UnpackInfo
  | sel : List Nat → UnpackInfo
deriving DecidableEq, Repr

/-- Modelled from the spec: whether child index `i` must be unpacked on a hit. -/
def UnpackInfo.needUnpack : UnpackInfo → Nat → Bool
  | .all, _ => true
  | .sel l, i => l.contains i

/-- Modelled from the spec: the search-iterator tree.  Variant tags follow the
design notes: BitVector leaf, EmptySearch, TrueSearch, the And/Or/AndNot
composites and the fused multi-bit-vector node produced by the optimizer.
A `bitvec` leaf records the bitmap, the inversion flag and the strictness it
was created with, plus the index of its attached TermFieldMatchData slot and
its numeric identity tag.  A fused `multiBv` node records its combining kind
(`true` = AND-combining, `false` = OR-combining), the stolen member iterators
in original order, its propagated strictness, its private unpack record over
the members, and the identity tags of the nodes it replaced (for the
diagnostics string). -/
inductive SIter where
  | bitvec (bv : Nat → Bool) (inverted : Bool) (strict : Bool) (tfmd : Nat) (ident : Nat)
  | emptyS (ident : Nat)
  | trueS (tfmd : Nat) (ident : Nat)
  | andS (children : List SIter) (strict : Bool) (upk : UnpackInfo) (ident : Nat)
  | orS (children : List SIter) (strict : Bool) (upk : UnpackInfo) (ident : Nat)
  | andNotS (children : List SIter) (strict : Bool) (upk : UnpackInfo) (ident : Nat)
  | multiBv (kind : Bool) (children : List SIter) (strict : Bool) (upk : UnpackInfo)
      (refIds : List Nat)

instance : Inhabited SIter := ⟨.emptyS 0⟩

/-- Modelled from the spec: the boolean composite types. -/
inductive CompKind where
  | kAnd | kOr | kAndNot
deriving DecidableEq, Repr

/-- Build the composite node of a given boolean kind. -/
def mkComp (k : CompKind) (cs : List SIter) (strict : Bool) (u : UnpackInfo)
    (ident : Nat) : SIter :=
  match k with
  | .kAnd => .andS cs strict u ident
  | .kOr => .orS cs strict u ident
  | .kAndNot => .andNotS cs strict u ident

/-- Modelled from the spec: `T::create(children, strict, unpackInfo)`.
Zero children produce an always-empty leaf; otherwise the composite node is
built over the given children (the regression test
`Fixture::testOptimizeCommon`, lines 375-385, shows that a single child is
wrapped, not returned unwrapped, and lines 387-398 show that an EmptySearch
second operand of AND-NOT is not folded away). -/
def SIter.create (k : CompKind) (cs : List SIter) (strict : Bool)
    (u : UnpackInfo) : SIter :=
  if cs.isEmpty then .emptyS 0 else mkComp k cs strict u 0

/-- The ordered child list of a node (empty for leaves). -/
def SIter.childrenOf : SIter → List SIter
  | .andS cs _ _ _ => cs
  | .orS cs _ _ _ => cs
  | .andNotS cs _ _ _ => cs
  | .multiBv _ cs _ _ _ => cs
  | _ => []

/-- The unpack record of a node ("force all" for leaves, which have no
children). -/
def SIter.upkOf : SIter → UnpackInfo
  | .andS _ _ u _ => u
  | .orS _ _ u _ => u
  | .andNotS _ _ u _ => u
  | .multiBv _ _ _ u _ => u
  | _ => .all

/-- Modelled from the spec: `MultiSearch::needUnpack(i)` of the node. -/
def SIter.needUnpack (t : SIter) (i : Nat) : Bool :=
  t.upkOf.needUnpack i

/-- Modelled from the spec: `is_strict()` — the strictness contract the node
was built with (rendered as a `Bool`; the leaf sentinels are non-strict). -/
def SIter.isStrict : SIter → Bool
  | .bitvec _ _ s _ _ => s
  | .andS _ s _ _ => s
  | .orS _ s _ _ => s
  | .andNotS _ s _ _ => s
  | .multiBv _ _ s _ _ => s
  | _ => false

/-- The numeric identity tag of a node (a fused node renders its replaced ids
instead; see `makeIdRefStr`). -/
def SIter.identOf : SIter → Nat
  | .bitvec _ _ _ _ i => i
  | .emptyS i => i
  | .trueS _ i => i
  | .andS _ _ _ i => i
  | .orS _ _ _ i => i
  | .andNotS _ _ _ i => i
  | .multiBv _ _ _ _ _ => 0

/-- Is the node a plain bit-vector leaf (the fusion candidates)? -/
def SIter.isBV : SIter → Bool
  | .bitvec _ _ _ _ _ => true
  | _ => false

/-- Is the node a MultiSearch composite? -/
def SIter.isMultiSearch : SIter → Bool
  | .andS _ _ _ _ => true
  | .orS _ _ _ _ => true
  | .andNotS _ _ _ _ => true
  | .multiBv _ _ _ _ _ => true
  | _ => false

/-- Is the node a fused multi-bit-vector node? -/
def SIter.isMultiBv : SIter → Bool
  | .multiBv _ _ _ _ _ => true
  | _ => false

mutual

/-- Modelled from the spec: the match predicate denoted by a tree — whether
document `d` is a hit.  A bit-vector leaf matches when its bit is set
(complemented under inversion), EmptySearch never matches, TrueSearch always
matches; AND requires all children, OR any child, and AND-NOT requires the
first (positive) child and forbids every later (negative) child.  A fused
node combines its members' bitmaps with its kind. -/
def SIter.matches : SIter → Nat → Bool
  | .bitvec bv inv _ _ _, d => bv d != inv
  | .emptyS _, _ => false
  | .trueS _ _, _ => true
  | .andS cs _ _ _, d => SIter.matchesAll cs d
  | .orS cs _ _ _, d => SIter.matchesAny cs d
  | .andNotS cs _ _ _, d =>
    match cs with
    | [] => false
    | c0 :: negs => c0.matches d && !(SIter.matchesAny negs d)
  | .multiBv kind cs _ _ _, d =>
    if kind then SIter.matchesAll cs d else SIter.matchesAny cs d

/-- All of the iterators in the list match `d`. -/
def SIter.matchesAll : List SIter → Nat → Bool
  | [], _ => true
  | c :: cs, d => c.matches d && SIter.matchesAll cs d

/-- At least one iterator in the list matches `d`. -/
def SIter.matchesAny : List SIter → Nat → Bool
  | [], _ => false
  | c :: cs, d => c.matches d || SIter.matchesAny cs d

end

/-- The original indices (counting from `base`) of the bit-vector leaves in a
child list. -/
def bvIdxs (base : Nat) : List SIter → List Nat
  | [] => []
  | c :: cs => if c.isBV then base :: bvIdxs (base + 1) cs else bvIdxs (base + 1) cs

/-- The original indices (counting from `base`) of the non-bit-vector
children in a child list. -/
def restIdxs (base : Nat) : List SIter → List Nat
  | [] => []
  | c :: cs => if c.isBV then restIdxs (base + 1) cs else base :: restIdxs (base + 1) cs

/-- Positions (counting from `j`) within `origIdxs` whose value is marked. -/
def selPositions (l : List Nat) (j : Nat) : List Nat → List Nat
  | [] => []
  | o :: os => if l.contains o then j :: selPositions l (j + 1) os else selPositions l (j + 1) os

/-- Modelled from the spec: remap an unpack record onto the stolen members —
member `j` (the `j`-th stolen child) needs unpack exactly when its original
index did; "force all" stays "force all". -/
def remapMarks (u : UnpackInfo) (origIdxs : List Nat) : UnpackInfo :=
  match u with
  | .all => .all
  | .sel l => .sel (selPositions l 0 origIdxs)

/-- New indices of the marked remaining children: the `j`-th remaining child
lands at new index `j` when `j < firstPos` and at `j + 1` otherwise (the fused
node occupies index `firstPos`). -/
def shiftedRestMarks (l : List Nat) (firstPos j : Nat) : List Nat → List Nat
  | [] => []
  | o :: os =>
    if l.contains o then
      (if j < firstPos then j else j + 1) :: shiftedRestMarks l firstPos (j + 1) os
    else shiftedRestMarks l firstPos (j + 1) os

/-- Modelled from the spec: the parent's unpack record after fusion.  The
remaining (non-stolen) children keep their needs-unpack status at their new
positions; the fused node itself, inserted at `firstPos`, is always recorded
as needing unpack (the conservative rule observed in the regression test
`test_bug_7163266`: the fused node is marked even when no stolen member was);
"force all" survives fusion unchanged. -/
def remapParentMarks (u : UnpackInfo) (firstPos : Nat) (restOrig : List Nat) : UnpackInfo :=
  match u with
  | .all => .all
  | .sel l => .sel (firstPos :: shiftedRestMarks l firstPos 0 restOrig)

/-- Modelled from the spec: build the fused multi-bit-vector node over the
stolen members.  Its strictness is propagated from the first member, its
private unpack record is the members' original needs-unpack status, and it
records the identity tags of the members it replaced, in original order. -/
def mkFused (kind : Bool) (stolen : List SIter) (stolenOrig : List Nat)
    (u : UnpackInfo) : SIter :=
  .multiBv kind stolen (stolen.headD default).isStrict (remapMarks u stolenOrig)
    (stolen.map SIter.identOf)

/-- Modelled from the spec: the fusion step at an AND or OR MultiSearch node
(`kind = true` for AND).  All bit-vector children — at least two are required
— are stolen, wherever they sit in the child list, into one fused node that
is inserted at the position of the first of them; the other children keep
their relative order.  (The spec's §4.4 step 2 describes contiguous
same-strictness runs, but the repository's own test pins the behaviour to
this whole-list variant: `Fixture::testOptimizeAndOr` fuses `[bv, Empty, bv]`
into `[fused, Empty]` and fuses a strict with a non-strict member.)
If, after fusion, no other child remains, the composite collapses away and
the fused node is returned directly, taking over the parent's identity tag
in its replaced-ids list. -/
def fuseAndOr (kind : Bool) (cs : List SIter) (strict : Bool) (u : UnpackInfo)
    (ident : Nat) : SIter :=
  if (cs.filter SIter.isBV).length < 2 then
    mkComp (if kind then .kAnd else .kOr) cs strict u ident
  else if (cs.filter (fun c => !c.isBV)).isEmpty then
    match mkFused kind (cs.filter SIter.isBV) (bvIdxs 0 cs) u with
    | .multiBv k ms s mu rids => .multiBv k ms s mu (ident :: rids)
    | other => other
  else
    mkComp (if kind then .kAnd else .kOr)
      ((cs.filter (fun c => !c.isBV)).take (cs.findIdx SIter.isBV) ++
        mkFused kind (cs.filter SIter.isBV) (bvIdxs 0 cs) u ::
          (cs.filter (fun c => !c.isBV)).drop (cs.findIdx SIter.isBV))
      strict (remapParentMarks u (cs.findIdx SIter.isBV) (restIdxs 0 cs)) ident

/-- New indices of the marked remaining negative children (numbered from 1;
the fused node occupies index `fusedPos`). -/
def shiftedRestMarksAndNot (l : List Nat) (fusedPos j : Nat) : List Nat → List Nat
  | [] => []
  | o :: os =>
    if l.contains o then
      (if j < fusedPos then j else j + 1) :: shiftedRestMarksAndNot l fusedPos (j + 1) os
    else shiftedRestMarksAndNot l fusedPos (j + 1) os

/-- Modelled from the spec: the AND-NOT parent's unpack record after fusion —
like `remapParentMarks` but the positive child stays at index 0 and the
negatives are renumbered from index 1. -/
def remapParentMarksAndNot (u : UnpackInfo) (fusedPos : Nat) (restOrig : List Nat) : UnpackInfo :=
  match u with
  | .all => .all
  | .sel l =>
    .sel ((if l.contains 0 then [0] else []) ++
      fusedPos :: shiftedRestMarksAndNot l fusedPos 1 restOrig)

/-- Modelled from the spec: the fusion step at an AND-NOT node.  The first
(positive) child is never stolen; the negative children are fused — when at
least two of them are bit-vector leaves — into one OR-combining node (the
complement of a union of negatives), inserted at the first stolen negative's
position. -/
def fuseAndNot (c0 : SIter) (negs : List SIter) (strict : Bool) (u : UnpackInfo)
    (ident : Nat) : SIter :=
  if (negs.filter SIter.isBV).length < 2 then .andNotS (c0 :: negs) strict u ident
  else
    .andNotS
      (c0 :: ((negs.filter (fun c => !c.isBV)).take (negs.findIdx SIter.isBV) ++
        mkFused false (negs.filter SIter.isBV) (bvIdxs 1 negs) u ::
          (negs.filter (fun c => !c.isBV)).drop (negs.findIdx SIter.isBV)))
      strict (remapParentMarksAndNot u (negs.findIdx SIter.isBV + 1) (restIdxs 1 negs)) ident

mutual

/-- Modelled from the spec: `MultiBitVectorIteratorBase::optimize` — recurse
depth-first so nested composites are rewritten before the parent is examined,
then apply the fusion step at each AND / OR / AND-NOT node.  Leaves and
already-fused nodes are returned unchanged. -/
def optimize : SIter → SIter
  | .andS cs strict u ident => fuseAndOr true (optimizeList cs) strict u ident
  | .orS cs strict u ident => fuseAndOr false (optimizeList cs) strict u ident
  | .andNotS cs strict u ident =>
    match optimizeList cs with
    | [] => .andNotS [] strict u ident
    | c0 :: negs => fuseAndNot c0 negs strict u ident
  | t => t

/-- Recursively optimize every child. -/
def optimizeList : List SIter → List SIter
  | [] => []
  | c :: cs => optimize c :: optimizeList cs

end

/-- The smallest document in `[d, e)` matching `t`, or `e` when there is
none (the iterator then parks at its end-id). -/
def nextMatch (t : SIter) (d e : Nat) : Nat :=
  if h : e ≤ d then e
  else if t.matches d then d
  else nextMatch t (d + 1) e
termination_by e - d

theorem nextMatch_lb (t : SIter) (d e : Nat) : min d e ≤ nextMatch t d e := by
  unfold nextMatch
  split
  · omega
  · split
    · omega
    · have := nextMatch_lb t (d + 1) e
      omega
termination_by e - d

/-- Modelled from the spec: the result sequence obtained by driving a tree
with repeated seeks over `[d, e)`, exactly as the test driver `seekNoReset`
does: a successful `seek(docId)` records the hit and advances by one; after a
failed seek a strict iterator has already advanced to the next match (or to
the end), so the driver jumps there, while behind a non-strict iterator it
probes the next document. -/
def drive (t : SIter) (d e : Nat) : List Nat :=
  if h : e ≤ d then []
  else if t.matches d then d :: drive t (d + 1) e
  else if t.isStrict then drive t (nextMatch t (d + 1) e) e
  else drive t (d + 1) e
termination_by e - d
decreasing_by
  · omega
  · have := nextMatch_lb t (d + 1) e
    omega
  · omega

mutual

/-- Modelled from the spec: `unpack(d)` — propagate the current hit into the
attached TermFieldMatchData slots.  A bit-vector or TrueSearch leaf writes
`d` into its own slot; a composite dispatches to exactly the children whose
index needs unpack and which are positioned at (match) `d` (the test
`verifyOrUnpack` shows that a marked OR child that does not match the hit is
left untouched).  The match-data store is modelled as a map from slot index
to the last written document id (sentinel 0 when never written). -/
def doUnpack : SIter → Nat → (Nat → Nat) → (Nat → Nat)
  | .bitvec _ _ _ tf _, d, m => fun j => if j = tf then d else m j
  | .trueS tf _, d, m => fun j => if j = tf then d else m j
  | .emptyS _, _, m => m
  | .andS cs _ u _, d, m => unpackChildren cs u 0 d m
  | .orS cs _ u _, d, m => unpackChildren cs u 0 d m
  | .andNotS cs _ u _, d, m => unpackChildren cs u 0 d m
  | .multiBv _ cs _ u _, d, m => unpackChildren cs u 0 d m

/-- Unpack dispatch over a child list, `i` being the index of the first
child in the list within the parent. -/
def unpackChildren : List SIter → UnpackInfo → Nat → Nat → (Nat → Nat) → (Nat → Nat)
  | [], _, _, _, m => m
  | c :: cs, u, i, d, m =>
    unpackChildren cs u (i + 1) d
      (if u.needUnpack i && c.matches d then doUnpack c d m else m)

end

/-- Modelled from the spec: `andWith(filter, estimate)` — push another
iterator as an additional AND-filter into an existing composite.  An
AND-shaped receiver (a plain AND composite, or an AND-combining fused node)
absorbs the filter and the call yields no rejected iterator; every other
receiver (OR, AND-NOT, leaves) cannot absorb it and returns the filter to
the caller.  The result is the pair (receiver after the call, rejected
filter).  The hit-count estimate only influences where in the child list the
filter is placed for cost ordering; the model appends it, which affects
neither the absorbed/rejected outcome nor the match set. -/
def andWith : SIter → SIter → Nat → SIter × Option SIter
  | .andS cs s u ident, f, _ => (.andS (cs ++ [f]) s u ident, none)
  | .multiBv true ms s u r, f, _ => (.andS [.multiBv true ms s u r, f] s .all 0, none)
  | t, f, _ => (t, some f)

/-- The identity tags a node stands for in the diagnostics string: its own
tag, except that a fused node reports the tags of the nodes it replaced. -/
def idsOf : SIter → List Nat
  | .multiBv _ _ _ _ rids => rids
  | t => [t.identOf]

/-- Comma-separated rendering of a tag list. -/
def joinIds : List Nat → String
  | [] => ""
  | [i] => toString i
  | i :: is => toString i ++ "," ++ joinIds is

/-- Modelled from the spec: `make_id_ref_str()`.  The repository's test
`test_id_ref_str` pins the format: every node renders `"[id]"` with its own
single tag — composites included — except a fused node, which renders the
bracketed, comma-separated tags of the nodes it replaced (the stolen members
in original left-to-right order, preceded by the collapsed parent's tag when
the fusion collapsed its parent away). -/
def makeIdRefStr (t : SIter) : String :=
  "[" ++ joinIds (idsOf t) ++ "]"

/-- Modelled from the spec: the mutable cursor of a range-initialized
iterator — the current document and the exclusive end-id. -/
structure IterState where
  cur : Nat
  endId : Nat
deriving DecidableEq, Repr

/-- Modelled from the spec: `initRange(begin, end)` — reset the cursor to
"before begin" and record the exclusive upper bound. -/
def initRange (b e : Nat) : IterState := ⟨b - 1, e⟩

/-- Modelled from the spec: a strict `seek(d)` on the tree: at or beyond the
end-id the cursor parks at the end-id and the seek fails; otherwise the
cursor advances to the next match at or after `d` (or to the end-id when
there is none) and the seek succeeds exactly when that position is `d`
itself. -/
def seekS (t : SIter) (s : IterState) (d : Nat) : Bool × IterState :=
  if s.endId ≤ d then (false, ⟨s.endId, s.endId⟩)
  else
    let m := nextMatch t d s.endId
    ((m == d : Bool), ⟨m, s.endId⟩)

/-- Modelled from the spec: `isAtEnd()` — the cursor has passed the
configured end-id. -/
def isAtEnd (s : IterState) : Bool := s.endId ≤ s.cur

/-- The test's `countUntilEnd` loop body: starting from a positioned
iterator, repeatedly `seekNext(docId + 1)` until `isAtEnd`, counting the
hits.  Written with explicit fuel so that termination of the C++ loop is a
provable statement (`none` = the loop was still running when the fuel ran
out). -/
def countLoop (t : SIter) : Nat → IterState → Option Nat
  | 0, _ => none
  | fuel + 1, s =>
    if isAtEnd s then some 0
    else
      match countLoop t fuel (seekS t s (s.cur + 1)).2 with
      | some c => some (c + 1)
      | none => none

/-- The test's `countUntilEnd`: `seekFirst(1)` and then count until
`isAtEnd`. -/
def countUntilEnd (t : SIter) (fuel e : Nat) : Option Nat :=
  countLoop t fuel (seekS t (initRange 1 e) 1).2

/-- Bit-vector leaf parameters: the bitmap, the inversion flag, the
strictness it is created with, its match-data slot and its identity tag
(mirrors the `BitVectorIterator::create` arguments). -/
structure BvSpec where
  bv : Nat → Bool
  inverted : Bool
  strict : Bool
  tfmd : Nat
  ident : Nat

/-- The bit-vector leaf described by a `BvSpec`. -/
def BvSpec.toIter (s : BvSpec) : SIter :=
  .bitvec s.bv s.inverted s.strict s.tfmd s.ident

theorem matchesAll_append (xs ys : List SIter) (d : Nat) :
    SIter.matchesAll (xs ++ ys) d = (SIter.matchesAll xs d && SIter.matchesAll ys d) := by
  induction xs with
  | nil => simp [SIter.matchesAll]
  | cons c cs ih => simp [SIter.matchesAll, ih, Bool.and_assoc]

theorem matchesAny_append (xs ys : List SIter) (d : Nat) :
    SIter.matchesAny (xs ++ ys) d = (SIter.matchesAny xs d || SIter.matchesAny ys d) := by
  induction xs with
  | nil => simp [SIter.matchesAny]
  | cons c cs ih => simp [SIter.matchesAny, ih, Bool.or_assoc]

theorem matchesAll_filter_split (cs : List SIter) (d : Nat) :
    SIter.matchesAll cs d =
      (SIter.matchesAll (cs.filter SIter.isBV) d &&
        SIter.matchesAll (cs.filter (fun c => !c.isBV)) d) := by
  induction cs with
  | nil => simp [SIter.matchesAll]
  | cons c cs ih =>
    cases hc : c.isBV <;>
      simp [SIter.matchesAll, List.filter_cons, hc, ih, Bool.and_assoc, Bool.and_left_comm]

theorem matchesAny_filter_split (cs : List SIter) (d : Nat) :
    SIter.matchesAny cs d =
      (SIter.matchesAny (cs.filter SIter.isBV) d ||
        SIter.matchesAny (cs.filter (fun c => !c.isBV)) d) := by
  induction cs with
  | nil => simp [SIter.matchesAny]
  | cons c cs ih =>
    cases hc : c.isBV <;>
      simp [SIter.matchesAny, List.filter_cons, hc, ih, Bool.or_assoc, Bool.or_left_comm]

theorem matchesAll_insert (l : List SIter) (p : Nat) (x : SIter) (d : Nat) :
    SIter.matchesAll (l.take p ++ x :: l.drop p) d =
      (x.matches d && SIter.matchesAll l d) := by
  rw [matchesAll_append]
  show _ = (x.matches d && SIter.matchesAll l d)
  conv_rhs => rw [← List.take_append_drop p l, matchesAll_append]
  simp [SIter.matchesAll, Bool.and_assoc, Bool.and_left_comm]

theorem matchesAny_insert (l : List SIter) (p : Nat) (x : SIter) (d : Nat) :
    SIter.matchesAny (l.take p ++ x :: l.drop p) d =
      (x.matches d || SIter.matchesAny l d) := by
  rw [matchesAny_append]
  show _ = (x.matches d || SIter.matchesAny l d)
  conv_rhs => rw [← List.take_append_drop p l, matchesAny_append]
  simp [SIter.matchesAny, Bool.or_assoc, Bool.or_left_comm]

theorem mkFused_matches (kind : Bool) (stolen : List SIter) (orig : List Nat)
    (u : UnpackInfo) (d : Nat) :
    (mkFused kind stolen orig u).matches d =
      if kind then SIter.matchesAll stolen d else SIter.matchesAny stolen d := rfl

theorem mkComp_andOr_matches (kind : Bool) (cs : List SIter) (strict : Bool)
    (u : UnpackInfo) (ident : Nat) (d : Nat) :
    (mkComp (if kind then .kAnd else .kOr) cs strict u ident).matches d =
      (if kind then SIter.matchesAll cs d else SIter.matchesAny cs d) := by
  cases kind <;> rfl

theorem fuseAndOr_matches_true (cs : List SIter) (strict : Bool)
    (u : UnpackInfo) (ident : Nat) (d : Nat) :
    (fuseAndOr true cs strict u ident).matches d = SIter.matchesAll cs d := by
  unfold fuseAndOr
  split
  case isTrue h => rfl
  case isFalse h =>
    split
    case isTrue hrest =>
      have hrest' : cs.filter (fun c => !c.isBV) = [] := by
        simpa [List.isEmpty_iff] using hrest
      show SIter.matchesAll (cs.filter SIter.isBV) d = SIter.matchesAll cs d
      rw [matchesAll_filter_split cs d, hrest']
      simp [SIter.matchesAll]
    case isFalse hrest =>
      show SIter.matchesAll _ d = SIter.matchesAll cs d
      rw [matchesAll_insert, mkFused_matches]
      rw [matchesAll_filter_split cs d]
      simp

theorem fuseAndOr_matches_false (cs : List SIter) (strict : Bool)
    (u : UnpackInfo) (ident : Nat) (d : Nat) :
    (fuseAndOr false cs strict u ident).matches d = SIter.matchesAny cs d := by
  unfold fuseAndOr
  split
  case isTrue h => rfl
  case isFalse h =>
    split
    case isTrue hrest =>
      have hrest' : cs.filter (fun c => !c.isBV) = [] := by
        simpa [List.isEmpty_iff] using hrest
      show SIter.matchesAny (cs.filter SIter.isBV) d = SIter.matchesAny cs d
      rw [matchesAny_filter_split cs d, hrest']
      simp [SIter.matchesAny]
    case isFalse hrest =>
      show SIter.matchesAny _ d = SIter.matchesAny cs d
      rw [matchesAny_insert, mkFused_matches]
      rw [matchesAny_filter_split cs d]
      simp

theorem fuseAndNot_matches (c0 : SIter) (negs : List SIter) (strict : Bool)
    (u : UnpackInfo) (ident : Nat) (d : Nat) :
    (fuseAndNot c0 negs strict u ident).matches d =
      (c0.matches d && !(SIter.matchesAny negs d)) := by
  unfold fuseAndNot
  split
  case isTrue h => rfl
  case isFalse h =>
    show (c0.matches d && !(SIter.matchesAny _ d)) = _
    rw [matchesAny_insert, mkFused_matches]
    rw [matchesAny_filter_split negs d]
    simp

mutual

theorem matches_optimize (t : SIter) (d : Nat) :
    (optimize t).matches d = t.matches d := by
  cases t with
  | bitvec bv inv s tf i => rfl
  | emptyS i => rfl
  | trueS tf i => rfl
  | multiBv k cs s u r => rfl
  | andS cs s u i =>
    show (fuseAndOr true (optimizeList cs) s u i).matches d = _
    rw [fuseAndOr_matches_true, matchesAll_optimizeList]
    rfl
  | orS cs s u i =>
    show (fuseAndOr false (optimizeList cs) s u i).matches d = _
    rw [fuseAndOr_matches_false, matchesAny_optimizeList]
    rfl
  | andNotS cs s u i =>
    cases cs with
    | nil => rfl
    | cons c0 negs =>
      show (fuseAndNot (optimize c0) (optimizeList negs) s u i).matches d = _
      rw [fuseAndNot_matches, matches_optimize c0 d, matchesAny_optimizeList negs d]
      rfl

theorem matchesAll_optimizeList (cs : List SIter) (d : Nat) :
    SIter.matchesAll (optimizeList cs) d = SIter.matchesAll cs d := by
  cases cs with
  | nil => rfl
  | cons c cs =>
    show ((optimize c).matches d && SIter.matchesAll (optimizeList cs) d) = _
    rw [matches_optimize c d, matchesAll_optimizeList cs d]
    rfl

theorem matchesAny_optimizeList (cs : List SIter) (d : Nat) :
    SIter.matchesAny (optimizeList cs) d = SIter.matchesAny cs d := by
  cases cs with
  | nil => rfl
  | cons c cs =>
    show ((optimize c).matches d || SIter.matchesAny (optimizeList cs) d) = _
    rw [matches_optimize c d, matchesAny_optimizeList cs d]
    rfl

end

theorem nextMatch_ub (t : SIter) (d e : Nat) : nextMatch t d e ≤ e := by
  rw [nextMatch]
  split
  case isTrue h => exact Nat.le_refl e
  case isFalse h =>
    split
    case isTrue hm => omega
    case isFalse hm => exact nextMatch_ub t (d + 1) e
termination_by e - d

theorem nextMatch_match (t : SIter) (d e : Nat) :
    nextMatch t d e < e → t.matches (nextMatch t d e) = true := by
  rw [nextMatch]
  split
  case isTrue h => intro hlt; omega
  case isFalse h =>
    split
    case isTrue hm => intro _; exact hm
    case isFalse hm => exact nextMatch_match t (d + 1) e
termination_by e - d

theorem nextMatch_gap (t : SIter) (d e : Nat) :
    ∀ k, d ≤ k → k < nextMatch t d e → t.matches k = false := by
  rw [nextMatch]
  split
  case isTrue h => intro k hk1 hk2; omega
  case isFalse h =>
    split
    case isTrue hm => intro k hk1 hk2; omega
    case isFalse hm =>
      intro k hk1 hk2
      by_cases hkd : k = d
      · subst hkd
        simpa using hm
      · exact nextMatch_gap t (d + 1) e k (by omega) hk2
termination_by e - d

/-- Driving a tree over `[d, e)` with the test driver yields exactly the
ascending list of its matching documents in that window, for strict and
non-strict trees alike. -/
theorem drive_eq (t : SIter) : ∀ (n d e : Nat), e - d = n →
    drive t d e = (List.range' d (e - d)).filter (fun k => t.matches k) := by
  intro n
  induction n using Nat.strong_induction_on with
  | _ n ih =>
    intro d e hn
    rw [drive]
    split
    case isTrue hd =>
      rw [show e - d = 0 by omega]
      rfl
    case isFalse hd =>
      have hrange : List.range' d (e - d) = d :: List.range' (d + 1) (e - (d + 1)) := by
        rw [show e - d = (e - (d + 1)) + 1 by omega, List.range'_succ]
      split
      case isTrue hm =>
        rw [ih (e - (d + 1)) (by omega) (d + 1) e rfl, hrange, List.filter_cons]
        simp [hm]
      case isFalse hm =>
        split
        case isTrue hstrict =>
          have hlb := nextMatch_lb t (d + 1) e
          have hub := nextMatch_ub t (d + 1) e
          have hd1 : d + 1 ≤ nextMatch t (d + 1) e := by omega
          rw [ih (e - nextMatch t (d + 1) e) (by omega) (nextMatch t (d + 1) e) e rfl]
          rw [show e - d = (nextMatch t (d + 1) e - d) + (e - nextMatch t (d + 1) e) by omega]
          rw [← range1_append d (nextMatch t (d + 1) e - d) (e - nextMatch t (d + 1) e)]
          rw [show d + (nextMatch t (d + 1) e - d) = nextMatch t (d + 1) e by omega]
          rw [List.filter_append]
          have hnil : (List.range' d (nextMatch t (d + 1) e - d)).filter
              (fun k => t.matches k) = [] := by
            rw [List.filter_eq_nil_iff]
            intro a ha
            obtain ⟨i, hi, hai⟩ := List.mem_range'.mp ha
            by_cases had : a = d
            · subst had
              simpa using hm
            · have hga : d + 1 ≤ a := by omega
              have hgap := nextMatch_gap t (d + 1) e a hga (by omega)
              simp [hgap]
          rw [hnil]
          rfl
        case isFalse hstrict =>
          rw [ih (e - (d + 1)) (by omega) (d + 1) e rfl, hrange, List.filter_cons]
          simp [hm]

/-- C1: for every boolean composite type T in {AndSearch, OrSearch,
AndNotSearch}, every strictness flag, and every set of input bit vectors,
driving the tree returned by `MultiBitVectorIteratorBase::optimize` with
repeated seek over `[1, docIdLimit)` produces exactly the same ascending
sequence of matching document identifiers, element for element, as driving
the original unoptimized tree. -/
theorem C1_optimized_tree_same_seek_sequence (k : CompKind) (strict : Bool)
    (leaves : List BvSpec) (docIdLimit : Nat) :
    drive (optimize (SIter.create k (leaves.map BvSpec.toIter) strict .all)) 1 docIdLimit =
      drive (SIter.create k (leaves.map BvSpec.toIter) strict .all) 1 docIdLimit := by
  rw [drive_eq _ (docIdLimit - 1) 1 docIdLimit rfl,
    drive_eq _ (docIdLimit - 1) 1 docIdLimit rfl]
  have hp : (fun kk => (optimize (SIter.create k (leaves.map BvSpec.toIter) strict .all)).matches kk) =
      (fun kk => (SIter.create k (leaves.map BvSpec.toIter) strict .all).matches kk) :=
    funext (fun kk => matches_optimize _ kk)
  rw [hp]

/-- C3 counterexample: `AndSearch::create` with the single child
`EmptySearch` returns an `AndSearch` composite holding that child — not the
child itself unwrapped, as the claim states (this is exactly what the
repository's own test `Fixture::testOptimizeCommon`, lines 375-385,
asserts, composite wrapper included). -/
theorem C3_counterexample :
    SIter.create .kAnd [SIter.emptyS 1] false .all ≠ SIter.emptyS 1 ∧
    (SIter.create .kAnd [SIter.emptyS 1] false .all).isMultiSearch = true ∧
    (SIter.create .kAnd [SIter.emptyS 1] false .all).childrenOf = [SIter.emptyS 1] := by
  refine ⟨?_, rfl, rfl⟩
  intro h
  simp [SIter.create, mkComp] at h

/-- C3 amended: for every composite type T in {AndSearch, OrSearch,
AndNotSearch}, every strictness flag and every single child `c`, `T::create`
with exactly the one child `c` returns a composite node of type T whose
child list is exactly `[c]` — the child is wrapped, never returned
unwrapped. -/
theorem C3_amended_single_child_is_wrapped (k : CompKind) (c : SIter)
    (strict : Bool) (u : UnpackInfo) :
    (SIter.create k [c] strict u).childrenOf = [c] ∧
    (SIter.create k [c] strict u).isMultiSearch = true ∧
    (SIter.create k [c] strict u).isMultiBv = false ∧
    SIter.create k [c] strict u ≠ c := by
  refine ⟨?_, ?_, ?_, ?_⟩
  · cases k <;> rfl
  · cases k <;> rfl
  · cases k <;> rfl
  · intro h
    have hs : sizeOf (SIter.create k [c] strict u) = sizeOf c := congrArg sizeOf h
    cases k <;> simp [SIter.create, mkComp] at hs <;> omega

/-- The fusion step at an AND node yields an AND-shaped node: either the
AND composite itself or (after single-child collapse) an AND-combining
fused node. -/
theorem fuseAndOr_true_shape (cs : List SIter) (strict : Bool) (u : UnpackInfo)
    (ident : Nat) :
    (∃ cs2 u2, fuseAndOr true cs strict u ident = .andS cs2 strict u2 ident) ∨
    (∃ ms ss mu rids, fuseAndOr true cs strict u ident = .multiBv true ms ss mu rids) := by
  unfold fuseAndOr
  split
  · exact Or.inl ⟨cs, u, rfl⟩
  · split
    · exact Or.inr ⟨_, _, _, _, rfl⟩
    · exact Or.inl ⟨_, _, rfl⟩

/-- The fusion step at an OR node yields an OR-shaped node. -/
theorem fuseAndOr_false_shape (cs : List SIter) (strict : Bool) (u : UnpackInfo)
    (ident : Nat) :
    (∃ cs2 u2, fuseAndOr false cs strict u ident = .orS cs2 strict u2 ident) ∨
    (∃ ms ss mu rids, fuseAndOr false cs strict u ident = .multiBv false ms ss mu rids) := by
  unfold fuseAndOr
  split
  · exact Or.inl ⟨cs, u, rfl⟩
  · split
    · exact Or.inr ⟨_, _, _, _, rfl⟩
    · exact Or.inl ⟨_, _, rfl⟩

/-- C4 counterexample: `andWith` on a plain AND composite with a valid
additional filter returns null (the filter is absorbed), contradicting the
claim that it "never returns null" — exactly the behaviour the repository's
test asserts (`EXPECT_TRUE(nullptr == filter.get())` for the AND case,
`Fixture::testOptimizeCommon` lines 444-471). -/
theorem C4_counterexample :
    (andWith (SIter.andS [SIter.emptyS 1, SIter.emptyS 2] false (.sel []) 3)
      (SIter.emptyS 4) 9).2 = none := rfl

/-- C4 amended: for every AND-shaped composite (plain or fused, strict or
non-strict, before or after optimize) and every additional filter,
`andWith(filter, estimate)` absorbs the filter and returns null; for every
OR-shaped composite it always returns the non-null rejected filter. -/
theorem C4_amended_andWith_absorbs_on_and_rejects_on_or
    (cs ms : List SIter) (strict fstrict : Bool) (u mu : UnpackInfo)
    (ident : Nat) (rids : List Nat) (f : SIter) (est : Nat)
    (leaves : List BvSpec) (hne : leaves ≠ []) :
    (andWith (SIter.andS cs strict u ident) f est).2 = none ∧
    (andWith (SIter.multiBv true ms fstrict mu rids) f est).2 = none ∧
    (andWith (SIter.orS cs strict u ident) f est).2 = some f ∧
    (andWith (SIter.multiBv false ms fstrict mu rids) f est).2 = some f ∧
    (andWith (optimize (SIter.create .kAnd (leaves.map BvSpec.toIter) strict .all))
      f est).2 = none ∧
    (andWith (optimize (SIter.create .kOr (leaves.map BvSpec.toIter) strict .all))
      f est).2 = some f := by
  refine ⟨rfl, rfl, rfl, rfl, ?_, ?_⟩
  · cases leaves with
    | nil => exact absurd rfl hne
    | cons l ls =>
      show (andWith (fuseAndOr true (optimizeList ((l :: ls).map BvSpec.toIter))
        strict .all 0) f est).2 = none
      rcases fuseAndOr_true_shape (optimizeList ((l :: ls).map BvSpec.toIter))
          strict .all 0 with ⟨cs2, u2, heq⟩ | ⟨ms2, ss2, mu2, rids2, heq⟩ <;>
        rw [heq] <;> rfl
  · cases leaves with
    | nil => rfl
    | cons l ls =>
      show (andWith (fuseAndOr false (optimizeList ((l :: ls).map BvSpec.toIter))
        strict .all 0) f est).2 = some f
      rcases fuseAndOr_false_shape (optimizeList ((l :: ls).map BvSpec.toIter))
          strict .all 0 with ⟨cs2, u2, heq⟩ | ⟨ms2, ss2, mu2, rids2, heq⟩ <;>
        rw [heq] <;> rfl

/-- Concrete instance of the amended C4: a two-bit-vector AND absorbs an
extra filter through `andWith` (null result) both before and after
optimize, and the corresponding OR rejects it, for a 1000-bit empty
bitmap fixture. -/
theorem C4_amended_witness :
    ([⟨fun _ => false, false, false, 0, 1⟩,
      ⟨fun _ => false, false, false, 0, 2⟩] : List BvSpec) ≠ [] ∧
    (andWith (optimize (SIter.create .kAnd
      (([⟨fun _ => false, false, false, 0, 1⟩,
         ⟨fun _ => false, false, false, 0, 2⟩] : List BvSpec).map BvSpec.toIter)
      false .all)) (SIter.emptyS 4) 9).2 = none ∧
    (andWith (optimize (SIter.create .kOr
      (([⟨fun _ => false, false, false, 0, 1⟩,
         ⟨fun _ => false, false, false, 0, 2⟩] : List BvSpec).map BvSpec.toIter)
      false .all)) (SIter.emptyS 4) 9).2 = some (SIter.emptyS 4) := by
  have h := C4_amended_andWith_absorbs_on_and_rejects_on_or
    [] [] false false .all .all 0 [] (SIter.emptyS 4) 9
    ([⟨fun _ => false, false, false, 0, 1⟩,
      ⟨fun _ => false, false, false, 0, 2⟩] : List BvSpec)
    (by intro h; cases h)
  exact ⟨(by intro h; cases h), h.2.2.2.2.1, h.2.2.2.2.2⟩

/-- Is the node one of the three plain boolean composites (the node kinds
the optimizer rewrites)? -/
def SIter.isPlainComposite : SIter → Bool
  | .andS _ _ _ _ => true
  | .orS _ _ _ _ => true
  | .andNotS _ _ _ _ => true
  | _ => false

theorem optimize_fix (t : SIter) (h : t.isPlainComposite = false) : optimize t = t := by
  cases t <;> first | rfl | simp [SIter.isPlainComposite] at h

theorem optimizeList_fix (cs : List SIter)
    (h : ∀ c ∈ cs, c.isPlainComposite = false) : optimizeList cs = cs := by
  induction cs with
  | nil => rfl
  | cons c cs ih =>
    show optimize c :: optimizeList cs = c :: cs
    rw [optimize_fix c (h c (List.mem_cons_self c cs)),
      ih (fun x hx => h x (List.mem_cons_of_mem c hx))]

theorem findIdx_le_filter_not (cs : List SIter) :
    cs.findIdx SIter.isBV ≤ (cs.filter (fun c => !c.isBV)).length := by
  induction cs with
  | nil => simp
  | cons c cs ih =>
    cases hc : c.isBV <;> simp [List.findIdx_cons, List.filter_cons, hc] <;> omega

theorem findIdx_append_cons (l1 : List SIter) (x : SIter) (l2 : List SIter)
    (h1 : ∀ y ∈ l1, SIter.isMultiBv y = false) (hx : x.isMultiBv = true) :
    (l1 ++ x :: l2).findIdx SIter.isMultiBv = l1.length := by
  induction l1 with
  | nil => simp [List.findIdx_cons, hx]
  | cons y l1 ih =>
    have hy := h1 y (List.mem_cons_self y l1)
    simp [List.findIdx_cons, hy, ih (fun z hz => h1 z (List.mem_cons_of_mem y hz))]

theorem filter_multiBv_insert (l1 : List SIter) (x : SIter) (l2 : List SIter)
    (h1 : ∀ y ∈ l1, SIter.isMultiBv y = false)
    (h2 : ∀ y ∈ l2, SIter.isMultiBv y = false) (hx : x.isMultiBv = true) :
    (l1 ++ x :: l2).filter SIter.isMultiBv = [x] ∧
    (l1 ++ x :: l2).filter (fun c => !c.isMultiBv) = l1 ++ l2 := by
  constructor
  · rw [List.filter_append, List.filter_cons,
      List.filter_eq_nil_iff.mpr (fun a ha => by simp [h1 a ha]),
      List.filter_eq_nil_iff.mpr (fun a ha => by simp [h2 a ha])]
    simp [hx]
  · rw [List.filter_append, List.filter_cons,
      List.filter_eq_self.mpr (fun a ha => by simp [h1 a ha]),
      List.filter_eq_self.mpr (fun a ha => by simp [h2 a ha])]
    simp [hx]

/-- C5 counterexample: the children `[BitVectorIterator, EmptySearch,
BitVectorIterator]` hold no contiguous run of two or more bit-vector
children, so under the claim the optimizer would fuse nothing and leave
three children; the modelled optimizer (pinned by
`Fixture::testOptimizeAndOr`, lines 491-506) instead produces two children
— one fused node containing both non-adjacent bit-vector children
(identity tags 1 and 2, in order) followed by the EmptySearch. -/
theorem C5_counterexample :
    (optimize (SIter.andS
      [SIter.bitvec (fun _ => false) false false 0 1, SIter.emptyS 9,
       SIter.bitvec (fun _ => false) false false 0 2] false .all 0)).childrenOf.length = 2 ∧
    ((optimize (SIter.andS
      [SIter.bitvec (fun _ => false) false false 0 1, SIter.emptyS 9,
       SIter.bitvec (fun _ => false) false false 0 2] false .all 0)).childrenOf.headD
        default).isMultiBv = true ∧
    ((optimize (SIter.andS
      [SIter.bitvec (fun _ => false) false false 0 1, SIter.emptyS 9,
       SIter.bitvec (fun _ => false) false false 0 2] false .all 0)).childrenOf.headD
        default).childrenOf.map SIter.identOf = [1, 2] ∧
    (optimize (SIter.andS
      [SIter.bitvec (fun _ => false) false false 0 1, SIter.emptyS 9,
       SIter.bitvec (fun _ => false) false false 0 2] false .all 0)).childrenOf.getD 1
        default = SIter.emptyS 9 :=
  ⟨rfl, rfl, rfl, rfl⟩

/-- C5 amended: at an AND or OR MultiSearch node over non-composite
children, the optimizer fuses ALL bit-vector children — regardless of
contiguity and of strictness mix — whenever there are at least two of them:
the post-optimize child list carries exactly one fused node, placed at the
position of the first bit-vector child, whose members are all the
bit-vector children in original left-to-right order and whose strictness is
the first member's; the non-bit-vector children keep their original
relative order around it.  With fewer than two bit-vector children the node
is left unchanged, and when no other child remains the composite collapses
to the fused node itself. -/
theorem C5_amended_optimizer_steals_all_bitvector_children
    (kind : Bool) (cs : List SIter) (strict : Bool) (u : UnpackInfo) (ident : Nat)
    (hleaf : ∀ c ∈ cs, c.isPlainComposite = false ∧ c.isMultiBv = false) :
    ((cs.filter SIter.isBV).length < 2 →
      optimize (if kind then SIter.andS cs strict u ident
        else SIter.orS cs strict u ident) =
      (if kind then SIter.andS cs strict u ident else SIter.orS cs strict u ident)) ∧
    (2 ≤ (cs.filter SIter.isBV).length → cs.filter (fun c => !c.isBV) ≠ [] →
      ((optimize (if kind then SIter.andS cs strict u ident
          else SIter.orS cs strict u ident)).childrenOf.filter
            (fun c => !c.isMultiBv) = cs.filter (fun c => !c.isBV)) ∧
      ((optimize (if kind then SIter.andS cs strict u ident
          else SIter.orS cs strict u ident)).childrenOf.findIdx SIter.isMultiBv =
        cs.findIdx SIter.isBV) ∧
      ((optimize (if kind then SIter.andS cs strict u ident
          else SIter.orS cs strict u ident)).childrenOf.filter SIter.isMultiBv =
        [mkFused kind (cs.filter SIter.isBV) (bvIdxs 0 cs) u]) ∧
      (mkFused kind (cs.filter SIter.isBV) (bvIdxs 0 cs) u).childrenOf =
        cs.filter SIter.isBV ∧
      (mkFused kind (cs.filter SIter.isBV) (bvIdxs 0 cs) u).isStrict =
        ((cs.filter SIter.isBV).headD default).isStrict) ∧
    (2 ≤ (cs.filter SIter.isBV).length → cs.filter (fun c => !c.isBV) = [] →
      (optimize (if kind then SIter.andS cs strict u ident
        else SIter.orS cs strict u ident)).isMultiBv = true ∧
      (optimize (if kind then SIter.andS cs strict u ident
        else SIter.orS cs strict u ident)).childrenOf = cs.filter SIter.isBV) := by
  have hopt : optimize (if kind then SIter.andS cs strict u ident
      else SIter.orS cs strict u ident) = fuseAndOr kind cs strict u ident := by
    cases kind
    · show fuseAndOr false (optimizeList cs) strict u ident = _
      rw [optimizeList_fix cs (fun c hc => (hleaf c hc).1)]
    · show fuseAndOr true (optimizeList cs) strict u ident = _
      rw [optimizeList_fix cs (fun c hc => (hleaf c hc).1)]
  rw [hopt]
  have hrestmem : ∀ y ∈ cs.filter (fun c => !c.isBV), SIter.isMultiBv y = false :=
    fun y hy => (hleaf y (List.mem_of_mem_filter hy)).2
  refine ⟨?_, ?_, ?_⟩
  · intro hlt
    unfold fuseAndOr
    rw [if_pos hlt]
    cases kind <;> rfl
  · intro h2 hrest
    unfold fuseAndOr
    rw [if_neg (by omega), if_neg (by simpa [List.isEmpty_iff] using hrest)]
    have hp : cs.findIdx SIter.isBV ≤ (cs.filter (fun c => !c.isBV)).length :=
      findIdx_le_filter_not cs
    have htl : ∀ y ∈ (cs.filter (fun c => !c.isBV)).take (cs.findIdx SIter.isBV),
        SIter.isMultiBv y = false :=
      fun y hy => hrestmem y (List.take_subset _ _ hy)
    have hdl : ∀ y ∈ (cs.filter (fun c => !c.isBV)).drop (cs.findIdx SIter.isBV),
        SIter.isMultiBv y = false :=
      fun y hy => hrestmem y (List.drop_subset _ _ hy)
    have hfstep := filter_multiBv_insert
      ((cs.filter (fun c => !c.isBV)).take (cs.findIdx SIter.isBV))
      (mkFused kind (cs.filter SIter.isBV) (bvIdxs 0 cs) u)
      ((cs.filter (fun c => !c.isBV)).drop (cs.findIdx SIter.isBV))
      htl hdl rfl
    have hkind : (mkComp (if kind then .kAnd else .kOr)
        ((cs.filter (fun c => !c.isBV)).take (cs.findIdx SIter.isBV) ++
          mkFused kind (cs.filter SIter.isBV) (bvIdxs 0 cs) u ::
            (cs.filter (fun c => !c.isBV)).drop (cs.findIdx SIter.isBV)) strict
        (remapParentMarks u (cs.findIdx SIter.isBV) (restIdxs 0 cs)) ident).childrenOf =
        (cs.filter (fun c => !c.isBV)).take (cs.findIdx SIter.isBV) ++
          mkFused kind (cs.filter SIter.isBV) (bvIdxs 0 cs) u ::
            (cs.filter (fun c => !c.isBV)).drop (cs.findIdx SIter.isBV) := by
      cases kind <;> rfl
    rw [hkind]
    refine ⟨?_, ?_, hfstep.1, rfl, rfl⟩
    · rw [hfstep.2, List.take_append_drop]
    · rw [findIdx_append_cons
          ((cs.filter (fun c => !c.isBV)).take (cs.findIdx SIter.isBV))
          (mkFused kind (cs.filter SIter.isBV) (bvIdxs 0 cs) u)
          ((cs.filter (fun c => !c.isBV)).drop (cs.findIdx SIter.isBV)) htl rfl,
        List.length_take, Nat.min_eq_left hp]
  · intro h2 hrest
    unfold fuseAndOr
    rw [if_neg (by omega), if_pos (by simpa [List.isEmpty_iff] using hrest)]
    exact ⟨rfl, rfl⟩

/-- Concrete instance of the amended C5 at the children
`[bit-vector #1, EmptySearch #9, bit-vector #2]`: after optimize the
remaining non-fused child list is exactly the EmptySearch and the single
fused node sits at index 0, the original position of the first bit-vector
child. -/
theorem C5_amended_witness :
    2 ≤ (([SIter.bitvec (fun _ => false) false false 0 1, SIter.emptyS 9,
      SIter.bitvec (fun _ => false) false false 0 2]).filter SIter.isBV).length ∧
    (optimize (SIter.andS
      [SIter.bitvec (fun _ => false) false false 0 1, SIter.emptyS 9,
       SIter.bitvec (fun _ => false) false false 0 2] false .all 0)).childrenOf.filter
        (fun c => !c.isMultiBv) = [SIter.emptyS 9] ∧
    (optimize (SIter.andS
      [SIter.bitvec (fun _ => false) false false 0 1, SIter.emptyS 9,
       SIter.bitvec (fun _ => false) false false 0 2] false .all 0)).childrenOf.findIdx
        SIter.isMultiBv = 0 := by
  have h := C5_amended_optimizer_steals_all_bitvector_children true
    [SIter.bitvec (fun _ => false) false false 0 1, SIter.emptyS 9,
     SIter.bitvec (fun _ => false) false false 0 2] false .all 0
    (by
      intro c hc
      simp only [List.mem_cons, List.not_mem_nil, or_false] at hc
      rcases hc with rfl | rfl | rfl <;> exact ⟨rfl, rfl⟩)
  have hmain := h.2.1 (by decide) (by intro hh; cases hh)
  exact ⟨by decide, hmain.1, hmain.2.1⟩

/-- C2: in the regression scenario of `test_bug_7163266` — a non-strict
AndSearch built from 28 always-unpack TrueSearch children followed by 2
BitVectorIterator children whose indices (28 and 29) are not in the
UnpackInfo — the composite starts with 30 children, of which the two
bit-vector children individually do not need unpack; after
`MultiBitVectorIteratorBase::optimize` the node has 29 children and reports
`needUnpack(i) = true` for every index `i` in `[0, 28]`, the fused
bit-vector node included. -/
theorem C2_needUnpack_survives_fusion (b0 b1 : Nat → Bool) :
    (SIter.create .kAnd
      ((List.range 28).map (fun i => SIter.trueS 2 (100 + i)) ++
        [SIter.bitvec b0 false false 0 50, SIter.bitvec b1 false false 1 51])
      false (.sel (List.range 28))).childrenOf.length = 30 ∧
    (SIter.create .kAnd
      ((List.range 28).map (fun i => SIter.trueS 2 (100 + i)) ++
        [SIter.bitvec b0 false false 0 50, SIter.bitvec b1 false false 1 51])
      false (.sel (List.range 28))).needUnpack 28 = false ∧
    (SIter.create .kAnd
      ((List.range 28).map (fun i => SIter.trueS 2 (100 + i)) ++
        [SIter.bitvec b0 false false 0 50, SIter.bitvec b1 false false 1 51])
      false (.sel (List.range 28))).needUnpack 29 = false ∧
    (optimize (SIter.create .kAnd
      ((List.range 28).map (fun i => SIter.trueS 2 (100 + i)) ++
        [SIter.bitvec b0 false false 0 50, SIter.bitvec b1 false false 1 51])
      false (.sel (List.range 28)))).childrenOf.length = 29 ∧
    ((List.range 29).all (fun i => (optimize (SIter.create .kAnd
      ((List.range 28).map (fun i => SIter.trueS 2 (100 + i)) ++
        [SIter.bitvec b0 false false 0 50, SIter.bitvec b1 false false 1 51])
      false (.sel (List.range 28)))).needUnpack i)) = true :=
  ⟨rfl, rfl, rfl, rfl, rfl⟩

/-- C8 counterexample: a plain composite node does not render
`"[id,child_id,...]"` — it renders only its own tag, as the test
`test_id_ref_str` asserts for its root (`"[10]"` for a five-child AND):
an AndSearch with id 7 over children with ids 3 and 5 renders `"[7]"`,
not `"[7,3,5]"`. -/
theorem C8_counterexample :
    makeIdRefStr (SIter.andS [SIter.emptyS 3, SIter.emptyS 5] false .all 7) = "[7]" ∧
    ("[7]" : String) ≠ "[7,3,5]" := ⟨rfl, by decide⟩

/-- C8 amended: `make_id_ref_str()` renders `"[id]"` — its own single tag —
for every node that is not a fused node, leaves and plain composites alike;
a fused multi-bit-vector node renders the bracketed, comma-separated tags
of the nodes it replaced: its stolen members' tags in original
left-to-right order, preceded by the collapsed parent's own tag when the
fusion collapsed a single-child parent away; non-fused siblings keep their
own separate id strings.  The final conjuncts replay the `test_id_ref_str`
tree: the root still renders `"[10]"` and its three children render
`"[7,3,5]"` (collapsed inner AND id 7 with members 3, 5), `"[2,4,6]"`
(fusion of the root's own bit-vector children) and `"[8]"` (the untouched
EmptySearch). -/
theorem C8_amended_id_ref_str_format (b : Nat → Bool) :
    (∀ (cs : List SIter) (strict : Bool) (u : UnpackInfo) (ident : Nat),
      makeIdRefStr (SIter.andS cs strict u ident) = "[" ++ toString ident ++ "]") ∧
    (∀ (tf ident : Nat) (inv st : Bool),
      makeIdRefStr (SIter.bitvec b inv st tf ident) = "[" ++ toString ident ++ "]") ∧
    (∀ ident, makeIdRefStr (SIter.emptyS ident) = "[" ++ toString ident ++ "]") ∧
    makeIdRefStr (optimize (SIter.andS
      [SIter.andS [SIter.bitvec b false false 0 3,
         SIter.bitvec b false false 0 5] false .all 7,
       SIter.bitvec b false false 0 2, SIter.emptyS 8,
       SIter.bitvec b false false 0 4, SIter.bitvec b false false 0 6]
      false .all 10)) = "[10]" ∧
    (optimize (SIter.andS
      [SIter.andS [SIter.bitvec b false false 0 3,
         SIter.bitvec b false false 0 5] false .all 7,
       SIter.bitvec b false false 0 2, SIter.emptyS 8,
       SIter.bitvec b false false 0 4, SIter.bitvec b false false 0 6]
      false .all 10)).childrenOf.map makeIdRefStr = ["[7,3,5]", "[2,4,6]", "[8]"] := by
  have h : optimize (SIter.andS
      [SIter.andS [SIter.bitvec b false false 0 3,
         SIter.bitvec b false false 0 5] false .all 7,
       SIter.bitvec b false false 0 2, SIter.emptyS 8,
       SIter.bitvec b false false 0 4, SIter.bitvec b false false 0 6]
      false .all 10) =
      SIter.andS
        [SIter.multiBv true [SIter.bitvec b false false 0 3,
           SIter.bitvec b false false 0 5] false .all [7, 3, 5],
         SIter.multiBv true [SIter.bitvec b false false 0 2,
           SIter.bitvec b false false 0 4, SIter.bitvec b false false 0 6]
           false .all [2, 4, 6],
         SIter.emptyS 8] false .all 10 := by rfl
  refine ⟨fun _ _ _ _ => rfl, fun _ _ _ _ => rfl, fun _ => rfl, ?_, ?_⟩
  · rw [h, makeIdRefStr]
    have hids : idsOf (SIter.andS
        [SIter.multiBv true [SIter.bitvec b false false 0 3,
           SIter.bitvec b false false 0 5] false .all [7, 3, 5],
         SIter.multiBv true [SIter.bitvec b false false 0 2,
           SIter.bitvec b false false 0 4, SIter.bitvec b false false 0 6]
           false .all [2, 4, 6],
         SIter.emptyS 8] false .all 10) = [10] := rfl
    rw [hids]
    rfl
  · rw [h]
    simp only [SIter.childrenOf, List.map_cons, List.map_nil, makeIdRefStr, idsOf, joinIds]
    decide

/-- Beyond the configured end-id a seek fails and parks the cursor at the
end-id, so `isAtEnd` holds. -/
theorem seekS_beyond_end (t : SIter) (s : IterState) (d : Nat) (h : s.endId ≤ d) :
    (seekS t s d).1 = false ∧ isAtEnd (seekS t s d).2 = true := by
  unfold seekS
  rw [if_pos h]
  exact ⟨rfl, by simp [isAtEnd]⟩

/-- Below the end-id, a seek leaves the iterator at the end — `isAtEnd` —
exactly when no document in `[d, endId)` matches the tree. -/
theorem seekS_atEnd_iff (t : SIter) (s : IterState) (d : Nat) (h : d < s.endId) :
    (isAtEnd (seekS t s d).2 = true ↔
      ∀ kk, d ≤ kk → kk < s.endId → t.matches kk = false) := by
  unfold seekS
  rw [if_neg (by omega)]
  show (isAtEnd ⟨nextMatch t d s.endId, s.endId⟩ = true ↔
    ∀ kk, d ≤ kk → kk < s.endId → t.matches kk = false)
  unfold isAtEnd
  rw [decide_eq_true_eq]
  show (s.endId ≤ nextMatch t d s.endId ↔
    ∀ kk, d ≤ kk → kk < s.endId → t.matches kk = false)
  constructor
  · intro hend kk h1 h2
    exact nextMatch_gap t d s.endId kk h1 (by omega)
  · intro hall
    by_contra hlt
    have hm := nextMatch_match t d s.endId (by omega)
    have hlb := nextMatch_lb t d s.endId
    have hub := nextMatch_ub t d s.endId
    have hff : t.matches (nextMatch t d s.endId) = false :=
      hall _ (by omega) (by omega)
    rw [hff] at hm
    cases hm

/-- Counting the matches of `[d, e)` by splitting the window at the first
match at or after `d`. -/
theorem count_split_at_nextMatch (t : SIter) (d e : Nat) (hd : d ≤ e) :
    ((List.range' d (e - d)).filter (fun kk => t.matches kk)).length =
      if e ≤ nextMatch t d e then 0
      else 1 + ((List.range' (nextMatch t d e + 1)
        (e - (nextMatch t d e + 1))).filter (fun kk => t.matches kk)).length := by
  have hlb : d ≤ nextMatch t d e := by
    have := nextMatch_lb t d e
    omega
  have hub := nextMatch_ub t d e
  by_cases hge : e ≤ nextMatch t d e
  · rw [if_pos hge]
    have hnil : (List.range' d (e - d)).filter (fun kk => t.matches kk) = [] := by
      rw [List.filter_eq_nil_iff]
      intro a ha
      obtain ⟨i, hi, hai⟩ := List.mem_range'.mp ha
      have hgap := nextMatch_gap t d e a (by omega) (by omega)
      simp [hgap]
    rw [hnil]
    rfl
  · rw [if_neg hge]
    have hm : nextMatch t d e < e := by omega
    have hmm := nextMatch_match t d e hm
    rw [show e - d = (nextMatch t d e - d) + (e - nextMatch t d e) by omega]
    rw [← range1_append d (nextMatch t d e - d) (e - nextMatch t d e)]
    rw [show d + (nextMatch t d e - d) = nextMatch t d e by omega]
    rw [List.filter_append, List.length_append]
    have hnil : (List.range' d (nextMatch t d e - d)).filter
        (fun kk => t.matches kk) = [] := by
      rw [List.filter_eq_nil_iff]
      intro a ha
      obtain ⟨i, hi, hai⟩ := List.mem_range'.mp ha
      have hgap := nextMatch_gap t d e a (by omega) (by omega)
      simp [hgap]
    rw [hnil]
    rw [show e - nextMatch t d e = (e - (nextMatch t d e + 1)) + 1 by omega]
    rw [List.range'_succ, List.filter_cons, if_pos hmm]
    simp only [List.length_nil, List.length_cons, Nat.zero_add]
    omega

/-- The strict seek-until-end loop terminates within any fuel exceeding the
remaining window and counts one iteration per loop entry: the current
position plus the matches strictly after it. -/
theorem countLoop_spec (t : SIter) (e : Nat) :
    ∀ (n : Nat) (s : IterState), s.endId = e → e - s.cur < n →
      countLoop t n s = some (if e ≤ s.cur then 0
        else 1 + ((List.range' (s.cur + 1) (e - (s.cur + 1))).filter
          (fun kk => t.matches kk)).length) := by
  intro n
  induction n using Nat.strong_induction_on with
  | _ n ih =>
    intro s hse hfuel
    cases n with
    | zero => omega
    | succ m =>
      simp only [countLoop]
      by_cases hend : isAtEnd s = true
      · rw [if_pos hend]
        have hcur : e ≤ s.cur := by
          simp [isAtEnd, hse] at hend
          omega
        rw [if_pos hcur]
      · rw [if_neg hend]
        have hcur : s.cur < e := by
          simp [isAtEnd, hse] at hend
          omega
        rw [if_neg (by omega : ¬ e ≤ s.cur)]
        by_cases h1 : e ≤ s.cur + 1
        · have hs2 : (seekS t s (s.cur + 1)).2 = ⟨e, e⟩ := by
            unfold seekS
            rw [hse, if_pos h1]
          have hmid : countLoop t m (seekS t s (s.cur + 1)).2 = some 0 := by
            rw [hs2, ih m (by omega) ⟨e, e⟩ rfl (by show e - e < m; omega)]
            rw [if_pos (show e ≤ (⟨e, e⟩ : IterState).cur from Nat.le_refl e)]
          rw [hmid]
          rw [show e - (s.cur + 1) = 0 by omega]
          rfl
        · have hs2 : (seekS t s (s.cur + 1)).2 = ⟨nextMatch t (s.cur + 1) e, e⟩ := by
            unfold seekS
            rw [hse, if_neg h1]
          have hlb : s.cur + 1 ≤ nextMatch t (s.cur + 1) e := by
            have := nextMatch_lb t (s.cur + 1) e
            omega
          have hub := nextMatch_ub t (s.cur + 1) e
          have hmid : countLoop t m (seekS t s (s.cur + 1)).2 =
              some (if e ≤ nextMatch t (s.cur + 1) e then 0
                else 1 + ((List.range' (nextMatch t (s.cur + 1) e + 1)
                  (e - (nextMatch t (s.cur + 1) e + 1))).filter
                  (fun kk => t.matches kk)).length) := by
            rw [hs2, ih m (by omega) ⟨nextMatch t (s.cur + 1) e, e⟩ rfl
              (by show e - nextMatch t (s.cur + 1) e < m; omega)]
          rw [hmid]
          rw [count_split_at_nextMatch t (s.cur + 1) e (by omega)]
          generalize (if e ≤ nextMatch t (s.cur + 1) e then 0
            else 1 + ((List.range' (nextMatch t (s.cur + 1) e + 1)
              (e - (nextMatch t (s.cur + 1) e + 1))).filter
              (fun kk => t.matches kk)).length) = A
          show some (A + 1) = some (1 + A)
          rw [Nat.add_comm A 1]

/-- The test's full traversal — `seekFirst(1)` then `seekNext(docId+1)`
until `isAtEnd` — terminates with fuel `e + 2` and counts exactly the
matches of `[1, e)`. -/
theorem countUntilEnd_eq (t : SIter) (e : Nat) :
    countUntilEnd t (e + 2) e =
      some (((List.range' 1 (e - 1)).filter (fun kk => t.matches kk)).length) := by
  unfold countUntilEnd initRange
  by_cases h1 : e ≤ 1
  · have hs1 : (seekS t ⟨1 - 1, e⟩ 1).2 = ⟨e, e⟩ := by
      simp [seekS, h1]
    rw [hs1, countLoop_spec t e (e + 2) ⟨e, e⟩ rfl (by show e - e < e + 2; omega)]
    rw [if_pos (show e ≤ (⟨e, e⟩ : IterState).cur from Nat.le_refl e)]
    rw [show e - 1 = 0 by omega]
    rfl
  · have hs1 : (seekS t ⟨1 - 1, e⟩ 1).2 = ⟨nextMatch t 1 e, e⟩ := by
      simp [seekS, h1]
    rw [hs1, countLoop_spec t e (e + 2) ⟨nextMatch t 1 e, e⟩ rfl
      (by show e - nextMatch t 1 e < e + 2; omega)]
    rw [count_split_at_nextMatch t 1 e (by omega)]

/-- C6: for the optimized two-child strict AND over two bit vectors, with
any cursor state configured with end-id `e`: (1) every seek at or beyond
`e` fails and leaves the iterator at-end; (2) below `e`, a seek leaves the
iterator at-end exactly when no matching document remains before `e` —
`isAtEnd` holds exactly once the cursor passes the doc-id limit; (3) the
full strict traversal `seekFirst(1)` / `seekNext(docId+1)` of the test
`test_that_short_vectors_dont_spin_at_end` terminates within `e + 2` loop
steps for every configured end `e` — including ends inside the last
partial word batch — and counts exactly the matches of `[1, e)`. -/
theorem C6_end_guard_and_termination (b0 b1 : Nat → Bool) (tf0 tf1 i0 i1 e : Nat)
    (s : IterState) (hs : s.endId = e) :
    (∀ d, e ≤ d →
      (seekS (optimize (SIter.create .kAnd
        [SIter.bitvec b0 false true tf0 i0, SIter.bitvec b1 false true tf1 i1]
        true .all)) s d).1 = false ∧
      isAtEnd (seekS (optimize (SIter.create .kAnd
        [SIter.bitvec b0 false true tf0 i0, SIter.bitvec b1 false true tf1 i1]
        true .all)) s d).2 = true) ∧
    (∀ d, d < e →
      (isAtEnd (seekS (optimize (SIter.create .kAnd
        [SIter.bitvec b0 false true tf0 i0, SIter.bitvec b1 false true tf1 i1]
        true .all)) s d).2 = true ↔
        ∀ kk, d ≤ kk → kk < e →
          (optimize (SIter.create .kAnd
            [SIter.bitvec b0 false true tf0 i0, SIter.bitvec b1 false true tf1 i1]
            true .all)).matches kk = false)) ∧
    countUntilEnd (optimize (SIter.create .kAnd
      [SIter.bitvec b0 false true tf0 i0, SIter.bitvec b1 false true tf1 i1]
      true .all)) (e + 2) e =
      some (((List.range' 1 (e - 1)).filter (fun kk =>
        (optimize (SIter.create .kAnd
          [SIter.bitvec b0 false true tf0 i0, SIter.bitvec b1 false true tf1 i1]
          true .all)).matches kk)).length) := by
  subst hs
  exact ⟨fun d hd => seekS_beyond_end _ s d hd,
    fun d hd => seekS_atEnd_iff _ s d hd,
    countUntilEnd_eq _ s.endId⟩

/-- C6 witness: the end-guard and terminating traversal at concrete inputs —
bitmaps with periods 2 and 3, end-id 5, a seek past the limit at 7, and the
full counted traversal with fuel 7. -/
theorem C6_end_guard_witness :
    (seekS (optimize (SIter.create .kAnd
      [SIter.bitvec (fun d => d % 2 == 1) false true 0 1,
       SIter.bitvec (fun d => d % 3 == 1) false true 1 2] true .all))
      ⟨0, 5⟩ 7).1 = false ∧
    countUntilEnd (optimize (SIter.create .kAnd
      [SIter.bitvec (fun d => d % 2 == 1) false true 0 1,
       SIter.bitvec (fun d => d % 3 == 1) false true 1 2] true .all)) 7 5 =
      some (((List.range' 1 4).filter (fun kk =>
        (optimize (SIter.create .kAnd
          [SIter.bitvec (fun d => d % 2 == 1) false true 0 1,
           SIter.bitvec (fun d => d % 3 == 1) false true 1 2]
          true .all)).matches kk)).length) := by
  have h := C6_end_guard_and_termination (fun d => d % 2 == 1) (fun d => d % 3 == 1)
    0 1 1 2 5 ⟨0, 5⟩ rfl
  exact ⟨(h.1 7 (by decide)).1, h.2.2⟩

/-- C7 counterexample: in an OR composite over three bit vectors with
unpack marks {1, 2}, at document 1 — just returned by a successful seek,
since child 1 matches it — `unpack(1)` writes the slot of marked child 1
but leaves the slot of marked child 2 untouched at sentinel 0, because
child 2 is not positioned at the hit (exactly what the repository's
`verifyOrUnpack` asserts).  So unpack does not write `d` into the match
data of every marked child. -/
theorem C7_counterexample :
    (SIter.create .kOr
      [SIter.bitvec (fun _ => false) false false 0 1,
       SIter.bitvec (fun d => d == 1) false false 1 2,
       SIter.bitvec (fun _ => false) false false 2 3]
      false (.sel [1, 2])).matches 1 = true ∧
    (SIter.create .kOr
      [SIter.bitvec (fun _ => false) false false 0 1,
       SIter.bitvec (fun d => d == 1) false false 1 2,
       SIter.bitvec (fun _ => false) false false 2 3]
      false (.sel [1, 2])).needUnpack 2 = true ∧
    doUnpack (SIter.create .kOr
      [SIter.bitvec (fun _ => false) false false 0 1,
       SIter.bitvec (fun d => d == 1) false false 1 2,
       SIter.bitvec (fun _ => false) false false 2 3]
      false (.sel [1, 2])) 1 (fun _ => 0) 2 = 0 ∧
    doUnpack (SIter.create .kOr
      [SIter.bitvec (fun _ => false) false false 0 1,
       SIter.bitvec (fun d => d == 1) false false 1 2,
       SIter.bitvec (fun _ => false) false false 2 3]
      false (.sel [1, 2])) 1 (fun _ => 0) 1 = 1 :=
  ⟨rfl, rfl, rfl, rfl⟩

/-- C7 amended: in the four-child family of
`Fixture::testThatOptimizePreservesUnpack` — three bit vectors and a
TrueSearch with unpack marks {1, 2} under AND or OR — `unpack(d)` at a
docId `d` just returned by a successful seek writes `d` into the match
data of exactly the marked children that are themselves positioned at `d`
(for AND all of them, so marked slot 1 receives `d`; for OR the marked
bit-vector slot receives `d` only when its bit is set), leaves every other
slot at sentinel 0, and does so identically before and after
`MultiBitVectorIteratorBase::optimize`. -/
theorem C7_amended_selective_unpack (k : CompKind) (hk : k ≠ .kAndNot)
    (b0 b1 b2 : Nat → Bool) (d j : Nat)
    (hd : (SIter.create k
      [SIter.bitvec b0 false false 0 20, SIter.bitvec b1 false false 1 21,
       SIter.trueS 2 22, SIter.bitvec b2 false false 3 23]
      false (.sel [1, 2])).matches d = true) :
    doUnpack (SIter.create k
      [SIter.bitvec b0 false false 0 20, SIter.bitvec b1 false false 1 21,
       SIter.trueS 2 22, SIter.bitvec b2 false false 3 23]
      false (.sel [1, 2])) d (fun _ => 0) j =
      (if j = 2 then d else if j = 1 then (if b1 d = true then d else 0) else 0) ∧
    doUnpack (optimize (SIter.create k
      [SIter.bitvec b0 false false 0 20, SIter.bitvec b1 false false 1 21,
       SIter.trueS 2 22, SIter.bitvec b2 false false 3 23]
      false (.sel [1, 2]))) d (fun _ => 0) j =
      (if j = 2 then d else if j = 1 then (if b1 d = true then d else 0) else 0) := by
  cases k with
  | kAndNot => exact absurd rfl hk
  | kAnd =>
    have hA : ((b0 d != false) &&
        ((b1 d != false) && (true && ((b2 d != false) && true)))) = true := hd
    have hopt : optimize (SIter.create .kAnd
        [SIter.bitvec b0 false false 0 20, SIter.bitvec b1 false false 1 21,
         SIter.trueS 2 22, SIter.bitvec b2 false false 3 23]
        false (.sel [1, 2])) =
        SIter.andS
          [SIter.multiBv true
            [SIter.bitvec b0 false false 0 20, SIter.bitvec b1 false false 1 21,
             SIter.bitvec b2 false false 3 23] false (.sel [1]) [20, 21, 23],
           SIter.trueS 2 22] false (.sel [0, 1]) 0 := rfl
    cases hb0 : b0 d <;> cases hb1 : b1 d <;> cases hb2 : b2 d <;>
      rw [hb0, hb1, hb2] at hA <;>
      first
      | exact absurd hA (by decide)
      | exact ⟨(by simp [SIter.create, mkComp, doUnpack, unpackChildren,
            UnpackInfo.needUnpack, SIter.matches, SIter.matchesAll,
            SIter.matchesAny, hb0, hb1, hb2]),
          (by rw [hopt]; simp [doUnpack, unpackChildren, UnpackInfo.needUnpack,
            SIter.matches, SIter.matchesAll, SIter.matchesAny, hb0, hb1, hb2])⟩
  | kOr =>
    have hopt : optimize (SIter.create .kOr
        [SIter.bitvec b0 false false 0 20, SIter.bitvec b1 false false 1 21,
         SIter.trueS 2 22, SIter.bitvec b2 false false 3 23]
        false (.sel [1, 2])) =
        SIter.orS
          [SIter.multiBv false
            [SIter.bitvec b0 false false 0 20, SIter.bitvec b1 false false 1 21,
             SIter.bitvec b2 false false 3 23] false (.sel [1]) [20, 21, 23],
           SIter.trueS 2 22] false (.sel [0, 1]) 0 := rfl
    cases hb1 : b1 d <;>
      exact ⟨(by simp [SIter.create, mkComp, doUnpack, unpackChildren,
          UnpackInfo.needUnpack, SIter.matches, SIter.matchesAll,
          SIter.matchesAny, hb1]),
        (by rw [hopt]; simp [doUnpack, unpackChildren, UnpackInfo.needUnpack,
          SIter.matches, SIter.matchesAll, SIter.matchesAny, hb1])⟩

/-- C7 witness: the amended selective-unpack law at concrete inputs — the
OR family with only child 1 matching document 1, queried at slot 1. -/
theorem C7_amended_witness :
    doUnpack (SIter.create .kOr
      [SIter.bitvec (fun _ => false) false false 0 20,
       SIter.bitvec (fun d => d == 1) false false 1 21,
       SIter.trueS 2 22,
       SIter.bitvec (fun _ => false) false false 3 23]
      false (.sel [1, 2])) 1 (fun _ => 0) 1 = 1 ∧
    doUnpack (optimize (SIter.create .kOr
      [SIter.bitvec (fun _ => false) false false 0 20,
       SIter.bitvec (fun d => d == 1) false false 1 21,
       SIter.trueS 2 22,
       SIter.bitvec (fun _ => false) false false 3 23]
      false (.sel [1, 2]))) 1 (fun _ => 0) 1 = 1 :=
  C7_amended_selective_unpack .kOr (by decide) (fun _ => false) (fun d => d == 1)
    (fun _ => false) 1 1 (by decide)

end Vespa

namespace Hwaccel

/-!
Shallow embedding of
`src/vespalib/src/vespa/vespalib/hwaccelerated/generic-inl.hpp`.
Fixed-width machine integers are modelled as `Int` with explicit
two's-complement reduction modulo `2 ^ w`.
-/

/-- Two's-complement reduction of an integer to a signed `w`-bit value (the
value a `w`-bit machine register holds after wraparound), landing in
`[-2 ^ (w - 1), 2 ^ (w - 1))`. -/
def wrapS (w : Nat) (x : Int) : Int :=
  (x + 2 ^ (w - 1)) % 2 ^ w - 2 ^ (w - 1)

/-- Wraparound 64-bit signed addition — the `+=` on the `int64_t`
accumulators of `multiplyAdd`. -/
def add64 (x y : Int) : Int := wrapS 64 (x + y)

/-- The inner unrolled loop of `multiplyAdd` (generic-inl.hpp lines 26-30):
`for (j = 0; j < UNROLL; j++) partial[j] += term(i + j)`.  Iteration `j`
reads and writes only slot `j`, so the sequential loop is the slot-wise
update; `j` is the running inner index. -/
def innerUpd (term : Nat → Int) (i j : Nat) : List Int → List Int
  | [] => []
  | x :: xs => add64 x (term (i + j)) :: innerUpd term i (j + 1) xs

/-- The main unrolled loop of `multiplyAdd` (lines 25-30):
`for (i = 0; i + UNROLL <= sz; i += UNROLL)` over the slot array `p`;
returns the final slot array together with the final value of `i` (which the
tail loop continues from).  The `0 < U` guard only rules out the degenerate
unroll factor 0 (the source instantiates `UNROLL = 8`). -/
def mainLoop (term : Nat → Int) (U sz i : Nat) (p : List Int) : List Int × Nat :=
  if _h : 0 < U ∧ i + U ≤ sz then mainLoop term U sz (i + U) (innerUpd term i 0 p)
  else (p, i)
termination_by sz - i
decreasing_by omega

/-- The tail loop of `multiplyAdd` (lines 31-33):
`for (; i < sz; i++) partial[i % UNROLL] += term(i)`. -/
def tailLoop (term : Nat → Int) (U sz i : Nat) (p : List Int) : List Int :=
  if _h : i < sz then
    tailLoop term U sz (i + 1) (p.set (i % U) (add64 (p.getD (i % U) 0) (term i)))
  else p
termination_by sz - i
decreasing_by omega

/-- `multiplyAdd<int64_t, T, UNROLL>` of generic-inl.hpp (lines 17-39) over
the per-index products `term`: zero-initialised slots, the unrolled main
loop, the tail loop, and the final left-to-right summation
`sum += partial[j]` (wraparound at 64 bits throughout). -/
def multiplyAdd (term : Nat → Int) (U sz : Nat) : Int :=
  let res := mainLoop term U sz 0 (List.replicate U 0)
  (tailLoop term U sz res.2 res.1).foldl add64 0

/-- The naive left-to-right accumulation of the same products under 64-bit
wraparound arithmetic: `acc = ((acc + term 0) + term 1) + ...`. -/
def naiveSum (term : Nat → Int) (sz : Nat) : Int :=
  (List.range sz).foldl (fun acc i => add64 acc (term i)) 0

/-- The per-index product for `int16_t` elements: the two operands are
promoted to 32-bit `int` and multiplied there (wraparound at 32 bits),
then sign-extended into the 64-bit accumulation. -/
def term16 (a b : Nat → Int) (i : Nat) : Int := wrapS 32 (a i * b i)

/-- The per-index product for `int32_t` elements: multiplied as 32-bit
`int` (wraparound at 32 bits), then sign-extended. -/
def term32 (a b : Nat → Int) (i : Nat) : Int := wrapS 32 (a i * b i)

/-- The per-index product for `int64_t` elements: multiplied with
wraparound at 64 bits. -/
def term64 (a b : Nat → Int) (i : Nat) : Int := wrapS 64 (a i * b i)

/-- `dotProduct(const int16_t *, const int16_t *, size_t)`
(generic-inl.hpp lines 119-123): `multiplyAdd<int64_t, int16_t, 8>`. -/
def dotProduct16 (a b : Nat → Int) (sz : Nat) : Int := multiplyAdd (term16 a b) 8 sz

/-- `dotProduct(const int32_t *, const int32_t *, size_t)` (lines 124-128):
`multiplyAdd<int64_t, int32_t, 8>`. -/
def dotProduct32 (a b : Nat → Int) (sz : Nat) : Int := multiplyAdd (term32 a b) 8 sz

/-- `dotProduct(const int64_t *, const int64_t *, size_t)` (lines 130-134):
`multiplyAdd<long long, int64_t, 8>`. -/
def dotProduct64 (a b : Nat → Int) (sz : Nat) : Int := multiplyAdd (term64 a b) 8 sz

/-- The naive reference accumulations for the three element widths. -/
def naiveDot16 (a b : Nat → Int) (sz : Nat) : Int := naiveSum (term16 a b) sz

/-- Naive reference for `int32_t`. -/
def naiveDot32 (a b : Nat → Int) (sz : Nat) : Int := naiveSum (term32 a b) sz

/-- Naive reference for `int64_t`. -/
def naiveDot64 (a b : Nat → Int) (sz : Nat) : Int := naiveSum (term64 a b) sz

/-- Residue map onto the 64-bit ring: two int64 values are equal iff they
are equal in `ZMod (2 ^ 64)` and both lie in the signed 64-bit range. -/
def phi (x : Int) : ZMod (2 ^ 64) := (x : ZMod (2 ^ 64))

theorem phi_wrapS (x : Int) : phi (wrapS 64 x) = phi x := by
  have key : wrapS 64 x = x - 2 ^ 64 * ((x + 2 ^ 63) / 2 ^ 64) := by
    unfold wrapS
    rw [Int.emod_def]
    ring
  rw [key]
  unfold phi
  rw [Int.cast_sub, Int.cast_mul]
  have h0 : ((2 ^ 64 : Int) : ZMod (2 ^ 64)) = 0 := by
    have h := ZMod.natCast_self (2 ^ 64)
    exact_mod_cast h
  rw [h0, zero_mul, sub_zero]

theorem wrapS_lb (x : Int) : -(2 ^ 63) ≤ wrapS 64 x := by
  have h := @Int.emod_nonneg (x + 2 ^ 63) ((2 : ℤ) ^ 64) (by norm_num)
  show -(2 ^ 63) ≤ (x + 2 ^ 63) % 2 ^ 64 - 2 ^ 63
  linarith

theorem wrapS_ub (x : Int) : wrapS 64 x < 2 ^ 63 := by
  have h := @Int.emod_lt_of_pos (x + 2 ^ 63) ((2 : ℤ) ^ 64) (by norm_num)
  have h2 : (2 : ℤ) ^ 64 = 2 * 2 ^ 63 := by ring
  show (x + 2 ^ 63) % 2 ^ 64 - 2 ^ 63 < 2 ^ 63
  linarith

/-- The signed 64-bit range. -/
def inR (x : Int) : Prop := -(2 ^ 63) ≤ x ∧ x < 2 ^ 63

theorem phi_inj (x y : Int) (hx : inR x) (hy : inR y) (h : phi x = phi y) :
    x = y := by
  unfold phi at h
  rw [ZMod.intCast_eq_intCast_iff'] at h
  push_cast at h
  obtain ⟨hx1, hx2⟩ := hx
  obtain ⟨hy1, hy2⟩ := hy
  have e63 : (2 : ℤ) ^ 63 = 9223372036854775808 := by norm_num
  rw [e63] at hx1 hx2 hy1 hy2
  omega

theorem phi_add64 (x y : Int) : phi (add64 x y) = phi x + phi y := by
  unfold add64
  rw [phi_wrapS]
  unfold phi
  push_cast
  ring

theorem add64_inR (x y : Int) : inR (add64 x y) := ⟨wrapS_lb _, wrapS_ub _⟩

theorem foldl_add64_phi (l : List Int) :
    ∀ c : Int, phi (l.foldl add64 c) = phi c + (l.map phi).sum := by
  induction l with
  | nil => simp
  | cons x xs ih =>
    intro c
    simp only [List.foldl_cons, List.map_cons, List.sum_cons, ih (add64 c x), phi_add64]
    ring

theorem foldl_add64_inR (l : List Int) :
    ∀ c : Int, inR c → inR (l.foldl add64 c) := by
  induction l with
  | nil => exact fun c hc => hc
  | cons x xs ih => exact fun c _ => ih (add64 c x) (add64_inR c x)

theorem innerUpd_length (term : Nat → Int) (i : Nat) :
    ∀ (p : List Int) (j : Nat), (innerUpd term i j p).length = p.length := by
  intro p
  induction p with
  | nil => intro j; rfl
  | cons x xs ih => intro j; simp [innerUpd, ih]

theorem innerUpd_sum (term : Nat → Int) (i : Nat) :
    ∀ (p : List Int) (j : Nat),
      ((innerUpd term i j p).map phi).sum =
        (p.map phi).sum +
          ((List.range' j p.length).map (fun k => phi (term (i + k)))).sum := by
  intro p
  induction p with
  | nil => intro j; simp [innerUpd]
  | cons x xs ih =>
    intro j
    simp only [innerUpd, List.map_cons, List.sum_cons, List.length_cons,
      List.range'_succ, phi_add64, ih (j + 1)]
    ring

theorem mainLoop_spec (term : Nat → Int) (U sz : Nat) :
    ∀ (n i : Nat) (p : List Int), sz - i = n → p.length = U →
      ((mainLoop term U sz i p).1.map phi).sum =
          (p.map phi).sum +
            ((List.range' i ((mainLoop term U sz i p).2 - i)).map
              (fun k => phi (term k))).sum
        ∧ i ≤ (mainLoop term U sz i p).2
        ∧ (mainLoop term U sz i p).1.length = U
        ∧ (i ≤ sz → (mainLoop term U sz i p).2 ≤ sz) := by
  intro n
  induction n using Nat.strong_induction_on with
  | _ n ih =>
    intro i p hn hp
    rw [mainLoop]
    split
    case isTrue h =>
      have hlen : (innerUpd term i 0 p).length = U := by
        rw [innerUpd_length]; exact hp
      have hrec := ih (sz - (i + U)) (by omega) (i + U) (innerUpd term i 0 p) rfl hlen
      obtain ⟨hsum, hge, hl, hle⟩ := hrec
      refine ⟨?_, by omega, hl, fun _ => hle (by omega)⟩
      rw [hsum, innerUpd_sum, hp]
      have hsplit :
          List.range' i U ++ List.range' (i + U)
              ((mainLoop term U sz (i + U) (innerUpd term i 0 p)).2 - (i + U)) =
            List.range' i ((mainLoop term U sz (i + U) (innerUpd term i 0 p)).2 - i) := by
        rw [range1_append]
        congr 1
        omega
      rw [← hsplit, List.map_append, List.sum_append]
      have hshift : (List.range' i U).map (fun k => phi (term k)) =
          (List.range' 0 U).map (fun k => phi (term (i + k))) := by
        rw [List.range'_eq_map_range, List.range'_eq_map_range, List.map_map, List.map_map]
        simp
      rw [hshift]
      ring
    case isFalse h =>
      refine ⟨?_, Nat.le_refl _, hp, fun hi => hi⟩
      simp

theorem set_phi_sum :
    ∀ (p : List Int) (k : Nat) (t : Int), k < p.length →
      ((p.set k (add64 (p.getD k 0) t)).map phi).sum = (p.map phi).sum + phi t := by
  intro p
  induction p with
  | nil => intro k t hk; simp at hk
  | cons x xs ih =>
    intro k t hk
    cases k with
    | zero =>
      simp only [List.getD_cons_zero, List.set, List.map_cons, List.sum_cons, phi_add64]
      ring
    | succ k =>
      have hk' : k < xs.length := by simpa using hk
      simp only [List.getD_cons_succ, List.set, List.map_cons, List.sum_cons, ih k t hk']
      ring

theorem tailLoop_spec (term : Nat → Int) (U sz : Nat) (hU : 0 < U) :
    ∀ (n i : Nat) (p : List Int), sz - i = n → p.length = U →
      ((tailLoop term U sz i p).map phi).sum =
        (p.map phi).sum + ((List.range' i (sz - i)).map (fun k => phi (term k))).sum := by
  intro n
  induction n with
  | zero =>
    intro i p hn hp
    rw [tailLoop, dif_neg (show ¬ i < sz by omega)]
    rw [show sz - i = 0 by omega]
    simp
  | succ n ih =>
    intro i p hn hp
    have hi : i < sz := by omega
    rw [tailLoop, dif_pos hi]
    have hmod : i % U < p.length := by rw [hp]; exact Nat.mod_lt _ hU
    have hlen : (p.set (i % U) (add64 (p.getD (i % U) 0) (term i))).length = U := by
      simp [hp]
    rw [ih (i + 1) _ (by omega) hlen, set_phi_sum p _ _ hmod]
    rw [show sz - i = (sz - (i + 1)) + 1 by omega, List.range'_succ]
    simp only [List.map_cons, List.sum_cons]
    ring

theorem naiveSum_eq_foldl (term : Nat → Int) (sz : Nat) :
    naiveSum term sz = ((List.range sz).map term).foldl add64 0 := by
  unfold naiveSum
  rw [List.foldl_map]

theorem multiplyAdd_eq_naiveSum (term : Nat → Int) (U sz : Nat) (hU : 0 < U) :
    multiplyAdd term U sz = naiveSum term sz := by
  have hrepl : (List.replicate U (0 : Int)).length = U := by simp
  have hmain := mainLoop_spec term U sz (sz - 0) 0 (List.replicate U 0) rfl hrepl
  obtain ⟨hmsum, hge, hmlen, hle⟩ := hmain
  have hend : (mainLoop term U sz 0 (List.replicate U 0)).2 ≤ sz := hle (Nat.zero_le _)
  have htail := tailLoop_spec term U sz hU (sz - (mainLoop term U sz 0 (List.replicate U 0)).2)
    (mainLoop term U sz 0 (List.replicate U 0)).2 (mainLoop term U sz 0 (List.replicate U 0)).1
    rfl hmlen
  apply phi_inj
  · unfold multiplyAdd
    exact foldl_add64_inR _ 0 ⟨by norm_num, by norm_num⟩
  · rw [naiveSum_eq_foldl]
    exact foldl_add64_inR _ 0 ⟨by norm_num, by norm_num⟩
  · unfold multiplyAdd
    rw [foldl_add64_phi, htail, hmsum]
    rw [naiveSum_eq_foldl, foldl_add64_phi, List.map_map]
    have hzero : ((List.replicate U (0 : Int)).map phi).sum = 0 := by
      simp [phi]
    have hsplit :
        ((List.range' 0 ((mainLoop term U sz 0 (List.replicate U 0)).2 - 0)).map
            (fun k => phi (term k))).sum +
          ((List.range' ((mainLoop term U sz 0 (List.replicate U 0)).2)
            (sz - (mainLoop term U sz 0 (List.replicate U 0)).2)).map
              (fun k => phi (term k))).sum =
          ((List.range sz).map (fun k => phi (term k))).sum := by
      rw [← List.sum_append, ← List.map_append]
      rw [show (mainLoop term U sz 0 (List.replicate U 0)).2 - 0 =
        (mainLoop term U sz 0 (List.replicate U 0)).2 from rfl]
      rw [show List.range' ((mainLoop term U sz 0 (List.replicate U 0)).2)
            (sz - (mainLoop term U sz 0 (List.replicate U 0)).2) =
          List.range' (0 + (mainLoop term U sz 0 (List.replicate U 0)).2)
            (sz - (mainLoop term U sz 0 (List.replicate U 0)).2) by
        rw [Nat.zero_add]]
      rw [range1_append]
      rw [show (mainLoop term U sz 0 (List.replicate U 0)).2 +
          (sz - (mainLoop term U sz 0 (List.replicate U 0)).2) = sz by omega]
      rw [List.range_eq_range']
    have hphi0 : phi (0 : Int) = 0 := by simp [phi]
    have hcomp : (List.range sz).map (phi ∘ term) =
        (List.range sz).map (fun k => phi (term k)) := rfl
    rw [hzero, hphi0, hcomp, ← hsplit]
    ring

/-- C9: for every integer element type T in {int16_t, int32_t, int64_t},
every length `sz` — including lengths that are not a multiple of the unroll
factor `UNROLL = 8` — and every pair of arrays `a` and `b` of length `sz`,
the unrolled generic `dotProduct` implemented via `multiplyAdd` returns
exactly the same value as the naive left-to-right accumulation of the sum
over `i < sz` of `a[i] * b[i]` under fixed-width wraparound integer
arithmetic. -/
theorem C9_dotProduct_unrolled_equals_naive (a b : Nat → Int) (sz : Nat) :
    dotProduct16 a b sz = naiveDot16 a b sz ∧
    dotProduct32 a b sz = naiveDot32 a b sz ∧
    dotProduct64 a b sz = naiveDot64 a b sz :=
  ⟨multiplyAdd_eq_naiveSum _ 8 sz (by norm_num),
   multiplyAdd_eq_naiveSum _ 8 sz (by norm_num),
   multiplyAdd_eq_naiveSum _ 8 sz (by norm_num)⟩

/-!
Embedding of `bitOperation` (generic-inl.hpp lines 67-91) and `notBit`
(lines 153-165).  A byte buffer is a function from byte index to byte value
(`< 256`); the 64-bit word at word index `w` is the little-endian packing of
the eight bytes starting at `8 * w`, exactly as the `uint64_t *` cast reads
it on the target platform.
-/

/-- Byte `k` of a natural number (its `k`-th base-256 digit). -/
def byteOf (k v : Nat) : Nat := v / 256 ^ k % 256

/-- Little-endian packing of the first `n` bytes delivered by `g`
(`packBytes 8 g` is the `uint64_t` read from memory bytes
`g 0, g 1, ..., g 7`). -/
def packBytes : Nat → (Nat → Nat) → Nat
  | 0, _ => 0
  | n + 1, g => g 0 + 256 * packBytes n (fun m => g (m + 1))

/-- The 64-bit word at word index `w` of buffer `a`. -/
def loadWord (a : Nat → Nat) (w : Nat) : Nat := packBytes 8 (fun k => a (8 * w + k))

/-- Write the 64-bit value `v` back as the word at word index `w`: the eight
bytes `[8 * w, 8 * w + 8)` become the bytes of `v`, everything else is
untouched. -/
def storeWord (a : Nat → Nat) (w v : Nat) : Nat → Nat :=
  fun i => if 8 * w ≤ i ∧ i < 8 * w + 8 then byteOf (i - 8 * w) v else a i

/-- One iteration of the word loop of `bitOperation`:
`a[i] = operation(a[i], b[i])` on `uint64_t` words. -/
def wordStep (op : Nat → Nat → Nat) (b a : Nat → Nat) (w : Nat) : Nat → Nat :=
  storeWord a w (op (loadWord a w) (loadWord b w))

/-- `cnt` successive word-loop iterations starting at word index `w` (the
body of both the unrolled inner loop, with `cnt = UNROLL`, and the leftover
word loop). -/
def wordRange (op : Nat → Nat → Nat) (b : Nat → Nat) : Nat → Nat → (Nat → Nat) → (Nat → Nat)
  | _, 0, a => a
  | w, cnt + 1, a => wordRange op b (w + 1) cnt (wordStep op b a w)

/-- The unrolled main word loop of `bitOperation` (lines 76-80):
`for (i = 0; i + UNROLL <= sz; i += UNROLL)` with an inner loop over the
`UNROLL = 8` words of the chunk; returns the buffer and the final word
index. -/
def bitOpChunks (op : Nat → Nat → Nat) (b : Nat → Nat) (sz : Nat) (w : Nat)
    (a : Nat → Nat) : (Nat → Nat) × Nat :=
  if _h : w + 8 ≤ sz then bitOpChunks op b sz (w + 8) (wordRange op b w 8 a)
  else (a, w)
termination_by sz - w
decreasing_by omega

/-- The byte tail loop of `bitOperation` (lines 86-90):
`for (i = sz * 8; i < bytes; i++) a[i] = operation(a[i], b[i])`, the
`uint64_t` result being truncated by the `uint8_t` store. -/
def byteTail (op : Nat → Nat → Nat) (b : Nat → Nat) (bytes i : Nat)
    (a : Nat → Nat) : Nat → Nat :=
  if _h : i < bytes then
    byteTail op b bytes (i + 1) (fun j => if j = i then op (a i) (b i) % 256 else a j)
  else a
termination_by bytes - i
decreasing_by omega

/-- `bitOperation<8>(operation, aOrg, bOrg, bytes)` (lines 67-91): the word
loop over `sz = bytes / 8` full words — an unrolled part plus a leftover
word loop — followed by the byte tail. -/
def bitOperation (op : Nat → Nat → Nat) (a b : Nat → Nat) (bytes : Nat) : Nat → Nat :=
  let sz := bytes / 8
  let res := bitOpChunks op b sz 0 a
  let a1 := wordRange op b res.2 (sz - res.2) res.1
  byteTail op b bytes (sz * 8) a1

/-- The all-ones 64-bit mask: `~` on a `uint64_t` is XOR with it. -/
def mask64 : Nat := 2 ^ 64 - 1

/-- `orBit` (lines 136-140): `bitOperation<8>` with `a | b`. -/
def orBit (a b : Nat → Nat) (bytes : Nat) : Nat → Nat :=
  bitOperation (fun x y => x ||| y) a b bytes

/-- `andBit` (lines 142-146): `bitOperation<8>` with `a & b`. -/
def andBit (a b : Nat → Nat) (bytes : Nat) : Nat → Nat :=
  bitOperation (fun x y => x &&& y) a b bytes

/-- `andNotBit` (lines 147-151): `bitOperation<8>` with `a & ~b`. -/
def andNotBit (a b : Nat → Nat) (bytes : Nat) : Nat → Nat :=
  bitOperation (fun x y => x &&& (y ^^^ mask64)) a b bytes

/-- The word loop of `notBit` (lines 156-160): `a[i] = ~a[i]` over the
`sz = bytes / 8` full words (no unrolling in the source). -/
def notWords (sz w : Nat) (a : Nat → Nat) : Nat → Nat :=
  if _h : w < sz then notWords sz (w + 1) (storeWord a w (loadWord a w ^^^ mask64))
  else a
termination_by sz - w
decreasing_by omega

/-- The byte tail of `notBit` (lines 161-164): `ac[i] = ~ac[i]`, the `int`
complement truncated by the `uint8_t` store (for a byte value this is XOR
with 255). -/
def notTail (bytes i : Nat) (a : Nat → Nat) : Nat → Nat :=
  if _h : i < bytes then
    notTail bytes (i + 1) (fun j => if j = i then a i ^^^ 255 else a j)
  else a
termination_by bytes - i
decreasing_by omega

/-- `notBit(aOrg, bytes)` (lines 153-165). -/
def notBit (a : Nat → Nat) (bytes : Nat) : Nat → Nat :=
  notTail bytes (bytes / 8 * 8) (notWords (bytes / 8) 0 a)

theorem testBit_byteOf (k v j : Nat) :
    (byteOf k v).testBit j = (decide (j < 8) && v.testBit (8 * k + j)) := by
  unfold byteOf
  have h1 : (256 : Nat) ^ k = 2 ^ (8 * k) := by
    rw [show (256 : Nat) = 2 ^ 8 from rfl, ← Nat.pow_mul]
  rw [h1, show (256 : Nat) = 2 ^ 8 from rfl, ← Nat.shiftRight_eq_div_pow,
    Nat.testBit_mod_two_pow, Nat.testBit_shiftRight]

theorem byteOf_land (u v k : Nat) : byteOf k (u &&& v) = byteOf k u &&& byteOf k v := by
  apply Nat.eq_of_testBit_eq
  intro j
  simp only [testBit_byteOf, Nat.testBit_land]
  by_cases hj : j < 8 <;> simp [hj]

theorem byteOf_lor (u v k : Nat) : byteOf k (u ||| v) = byteOf k u ||| byteOf k v := by
  apply Nat.eq_of_testBit_eq
  intro j
  simp only [testBit_byteOf, Nat.testBit_lor]
  by_cases hj : j < 8 <;> simp [hj]

theorem byteOf_notMask (v k : Nat) (hk : k < 8) :
    byteOf k (v ^^^ mask64) = byteOf k v ^^^ 255 := by
  apply Nat.eq_of_testBit_eq
  intro j
  simp only [testBit_byteOf, Nat.testBit_xor, show mask64 = 2 ^ 64 - 1 from rfl,
    show (255 : Nat) = 2 ^ 8 - 1 from rfl, Nat.testBit_two_pow_sub_one]
  by_cases hj : j < 8
  · have h64 : 8 * k + j < 64 := by omega
    simp [hj, h64]
  · simp [hj]

theorem byteOf_andNot (u v k : Nat) (hk : k < 8) :
    byteOf k (u &&& (v ^^^ mask64)) = byteOf k u &&& (byteOf k v ^^^ 255) := by
  rw [byteOf_land, byteOf_notMask v k hk]

theorem byteOf_packBytes :
    ∀ (n : Nat) (g : Nat → Nat) (k : Nat), k < n → (∀ m, m < n → g m < 256) →
      byteOf k (packBytes n g) = g k := by
  intro n
  induction n with
  | zero => intro g k hk _; omega
  | succ n ih =>
    intro g k hk hg
    cases k with
    | zero =>
      show packBytes (n + 1) g / 256 ^ 0 % 256 = g 0
      rw [pow_zero, Nat.div_one, show packBytes (n + 1) g =
        g 0 + 256 * packBytes n (fun m => g (m + 1)) from rfl]
      rw [Nat.add_mul_mod_self_left]
      exact Nat.mod_eq_of_lt (hg 0 (Nat.succ_pos n))
    | succ k =>
      show packBytes (n + 1) g / 256 ^ (k + 1) % 256 = g (k + 1)
      rw [show packBytes (n + 1) g = g 0 + 256 * packBytes n (fun m => g (m + 1)) from rfl]
      rw [pow_succ', ← Nat.div_div_eq_div_mul]
      rw [Nat.add_mul_div_left _ _ (show 0 < 256 by norm_num)]
      rw [Nat.div_eq_of_lt (hg 0 (Nat.succ_pos n)), Nat.zero_add]
      exact ih (fun m => g (m + 1)) k (by omega) (fun m hm => hg (m + 1) (by omega))

theorem loadWord_byte (a : Nat → Nat) (ha : ∀ i, a i < 256) (w k : Nat) (hk : k < 8) :
    byteOf k (loadWord a w) = a (8 * w + k) :=
  byteOf_packBytes 8 _ k hk (fun _ _ => ha _)

theorem wordStep_eq (op bop : Nat → Nat → Nat)
    (hfact : ∀ u v k, k < 8 → byteOf k (op u v) = bop (byteOf k u) (byteOf k v))
    (a b : Nat → Nat) (ha : ∀ i, a i < 256) (hb : ∀ i, b i < 256) (w : Nat) :
    wordStep op b a w = fun i =>
      if 8 * w ≤ i ∧ i < 8 * w + 8 then bop (a i) (b i) else a i := by
  funext i
  unfold wordStep storeWord
  split
  case isTrue h =>
    rw [hfact _ _ _ (by omega), loadWord_byte a ha w _ (by omega),
      loadWord_byte b hb w _ (by omega)]
    have hi : 8 * w + (i - 8 * w) = i := by omega
    rw [hi]
  case isFalse h => rfl

theorem wordRange_spec (op bop : Nat → Nat → Nat)
    (hfact : ∀ u v k, k < 8 → byteOf k (op u v) = bop (byteOf k u) (byteOf k v))
    (hbop : ∀ u v, u < 256 → v < 256 → bop u v < 256)
    (b : Nat → Nat) (hb : ∀ i, b i < 256) :
    ∀ (cnt w : Nat) (a : Nat → Nat), (∀ i, a i < 256) →
      wordRange op b w cnt a = fun i =>
        if 8 * w ≤ i ∧ i < 8 * (w + cnt) then bop (a i) (b i) else a i := by
  intro cnt
  induction cnt with
  | zero =>
    intro w a _
    funext i
    show a i = _
    rw [if_neg (by omega)]
  | succ cnt ih =>
    intro w a ha
    have hstep := wordStep_eq op bop hfact a b ha hb w
    have ha' : ∀ i, (wordStep op b a w) i < 256 := by
      intro i
      rw [hstep]
      dsimp only
      split
      case isTrue h => exact hbop _ _ (ha i) (hb i)
      case isFalse h => exact ha i
    show wordRange op b (w + 1) cnt (wordStep op b a w) = _
    rw [ih (w + 1) _ ha']
    funext i
    rw [hstep]
    dsimp only
    by_cases h1 : 8 * (w + 1) ≤ i ∧ i < 8 * (w + 1 + cnt) <;>
      by_cases h2 : 8 * w ≤ i ∧ i < 8 * w + 8
    · exact absurd h1.1 (by omega)
    · rw [if_pos h1, if_neg h2, if_pos (by omega)]
    · rw [if_neg h1, if_pos h2, if_pos (by omega)]
    · rw [if_neg h1, if_neg h2, if_neg (by omega)]

theorem bitOpChunks_spec (op bop : Nat → Nat → Nat)
    (hfact : ∀ u v k, k < 8 → byteOf k (op u v) = bop (byteOf k u) (byteOf k v))
    (hbop : ∀ u v, u < 256 → v < 256 → bop u v < 256)
    (b : Nat → Nat) (hb : ∀ i, b i < 256) (sz : Nat) :
    ∀ (n w : Nat) (a : Nat → Nat), sz - w = n → (∀ i, a i < 256) →
      ∃ e, w ≤ e ∧ (w ≤ sz → e ≤ sz) ∧ (bitOpChunks op b sz w a).2 = e ∧
        (bitOpChunks op b sz w a).1 = fun i =>
          if 8 * w ≤ i ∧ i < 8 * e then bop (a i) (b i) else a i := by
  intro n
  induction n using Nat.strong_induction_on with
  | _ n ih =>
    intro w a hn ha
    rw [bitOpChunks]
    split
    case isTrue h =>
      have hwr := wordRange_spec op bop hfact hbop b hb 8 w a ha
      have ha' : ∀ i, (wordRange op b w 8 a) i < 256 := by
        intro i
        rw [hwr]
        dsimp only
        split
        case isTrue hcc => exact hbop _ _ (ha i) (hb i)
        case isFalse hcc => exact ha i
      obtain ⟨e, he1, he2, hsnd, hfst⟩ := ih (sz - (w + 8)) (by omega) (w + 8) _ rfl ha'
      refine ⟨e, by omega, fun _ => he2 (by omega), hsnd, ?_⟩
      rw [hfst, hwr]
      funext i
      dsimp only
      by_cases h1 : 8 * (w + 8) ≤ i ∧ i < 8 * e <;>
        by_cases h2 : 8 * w ≤ i ∧ i < 8 * (w + 8)
      · exact absurd h1.1 (by omega)
      · rw [if_pos h1, if_neg h2, if_pos (by omega)]
      · rw [if_neg h1, if_pos h2, if_pos (by omega)]
      · rw [if_neg h1, if_neg h2, if_neg (by omega)]
    case isFalse h =>
      refine ⟨w, Nat.le_refl w, fun hw => hw, rfl, ?_⟩
      funext i
      show a i = _
      rw [if_neg (by omega)]

theorem byteTail_spec (op : Nat → Nat → Nat) (b : Nat → Nat) (bytes : Nat) :
    ∀ (n i : Nat) (a : Nat → Nat), bytes - i = n →
      byteTail op b bytes i a = fun j =>
        if i ≤ j ∧ j < bytes then op (a j) (b j) % 256 else a j := by
  intro n
  induction n with
  | zero =>
    intro i a hn
    rw [byteTail, dif_neg (by omega)]
    funext j
    rw [if_neg (by omega)]
  | succ n ih =>
    intro i a hn
    rw [byteTail, dif_pos (by omega : i < bytes)]
    rw [ih (i + 1) _ (by omega)]
    funext j
    dsimp only
    split_ifs <;> first | rfl | omega | simp_all

theorem bitOperation_spec (op bop : Nat → Nat → Nat)
    (hfact : ∀ u v k, k < 8 → byteOf k (op u v) = bop (byteOf k u) (byteOf k v))
    (hbop : ∀ u v, u < 256 → v < 256 → bop u v < 256)
    (hbyte : ∀ u v, u < 256 → v < 256 → op u v % 256 = bop u v)
    (a b : Nat → Nat) (ha : ∀ i, a i < 256) (hb : ∀ i, b i < 256) (bytes : Nat) :
    bitOperation op a b bytes = fun i =>
      if i < bytes then bop (a i) (b i) else a i := by
  obtain ⟨e, he1, he2, hsnd, hfst⟩ :=
    bitOpChunks_spec op bop hfact hbop b hb (bytes / 8) (bytes / 8 - 0) 0 a rfl ha
  have hesz : e ≤ bytes / 8 := he2 (Nat.zero_le _)
  show byteTail op b bytes (bytes / 8 * 8)
    (wordRange op b (bitOpChunks op b (bytes / 8) 0 a).2
      (bytes / 8 - (bitOpChunks op b (bytes / 8) 0 a).2)
      (bitOpChunks op b (bytes / 8) 0 a).1) = _
  rw [hsnd, hfst]
  have ha1 : ∀ i, (fun i => if 8 * 0 ≤ i ∧ i < 8 * e then bop (a i) (b i) else a i) i < 256 := by
    intro i
    dsimp only
    split
    case isTrue hcc => exact hbop _ _ (ha i) (hb i)
    case isFalse hcc => exact ha i
  rw [wordRange_spec op bop hfact hbop b hb (bytes / 8 - e) e _ ha1]
  rw [byteTail_spec op b bytes (bytes - bytes / 8 * 8) (bytes / 8 * 8) _ rfl]
  funext i
  dsimp only
  by_cases h1 : i < 8 * e
  · rw [if_neg (show ¬ (bytes / 8 * 8 ≤ i ∧ i < bytes) by omega),
      if_neg (show ¬ (8 * e ≤ i ∧ i < 8 * (e + (bytes / 8 - e))) by omega),
      if_pos (show 8 * 0 ≤ i ∧ i < 8 * e by omega),
      if_pos (show i < bytes by omega)]
  · by_cases h2 : i < 8 * (bytes / 8)
    · rw [if_neg (show ¬ (bytes / 8 * 8 ≤ i ∧ i < bytes) by omega),
        if_pos (show 8 * e ≤ i ∧ i < 8 * (e + (bytes / 8 - e)) by omega),
        if_neg (show ¬ (8 * 0 ≤ i ∧ i < 8 * e) by omega),
        if_pos (show i < bytes by omega)]
    · by_cases h3 : i < bytes
      · rw [if_pos (show bytes / 8 * 8 ≤ i ∧ i < bytes by omega),
          if_neg (show ¬ (8 * e ≤ i ∧ i < 8 * (e + (bytes / 8 - e))) by omega),
          if_neg (show ¬ (8 * 0 ≤ i ∧ i < 8 * e) by omega),
          if_pos h3]
        exact hbyte _ _ (ha i) (hb i)
      · rw [if_neg (show ¬ (bytes / 8 * 8 ≤ i ∧ i < bytes) by omega),
          if_neg (show ¬ (8 * e ≤ i ∧ i < 8 * (e + (bytes / 8 - e))) by omega),
          if_neg (show ¬ (8 * 0 ≤ i ∧ i < 8 * e) by omega),
          if_neg h3]

theorem lor_lt_256 (u v : Nat) (hu : u < 256) (hv : v < 256) : u ||| v < 256 := by
  have h := @Nat.or_lt_two_pow u v 8 (by omega) (by omega)
  omega

theorem xor255_lt {u : Nat} (hu : u < 256) : u ^^^ 255 < 256 := by
  have h := @Nat.xor_lt_two_pow u 255 8 (by omega) (by omega)
  omega

theorem andnot_byte (u v : Nat) (hu : u < 256) :
    u &&& (v ^^^ mask64) = u &&& (v ^^^ 255) := by
  apply Nat.eq_of_testBit_eq
  intro j
  simp only [Nat.testBit_land, Nat.testBit_xor, show mask64 = 2 ^ 64 - 1 from rfl,
    show (255 : Nat) = 2 ^ 8 - 1 from rfl, Nat.testBit_two_pow_sub_one]
  by_cases hj : j < 8
  · have h64 : j < 64 := by omega
    simp [hj, h64]
  · have h28 : (256 : Nat) ≤ 2 ^ j := by
      calc (256 : Nat) = 2 ^ 8 := rfl
        _ ≤ 2 ^ j := Nat.pow_le_pow_right (by norm_num) (by omega)
    have hu' : u.testBit j = false := Nat.testBit_lt_two_pow (lt_of_lt_of_le hu h28)
    simp [hu']

theorem andBit_spec (a b : Nat → Nat) (ha : ∀ i, a i < 256) (hb : ∀ i, b i < 256)
    (bytes : Nat) :
    andBit a b bytes = fun i => if i < bytes then a i &&& b i else a i :=
  bitOperation_spec _ _ (fun u v k _ => byteOf_land u v k)
    (fun u _ hu _ => lt_of_le_of_lt Nat.and_le_left hu)
    (fun u _ hu _ => Nat.mod_eq_of_lt (lt_of_le_of_lt Nat.and_le_left hu))
    a b ha hb bytes

theorem orBit_spec (a b : Nat → Nat) (ha : ∀ i, a i < 256) (hb : ∀ i, b i < 256)
    (bytes : Nat) :
    orBit a b bytes = fun i => if i < bytes then a i ||| b i else a i :=
  bitOperation_spec _ _ (fun u v k _ => byteOf_lor u v k)
    (fun u v hu hv => lor_lt_256 u v hu hv)
    (fun u v hu hv => Nat.mod_eq_of_lt (lor_lt_256 u v hu hv))
    a b ha hb bytes

theorem andNotBit_spec (a b : Nat → Nat) (ha : ∀ i, a i < 256) (hb : ∀ i, b i < 256)
    (bytes : Nat) :
    andNotBit a b bytes = fun i => if i < bytes then a i &&& (b i ^^^ 255) else a i :=
  bitOperation_spec (fun x y => x &&& (y ^^^ mask64)) (fun u v => u &&& (v ^^^ 255))
    (fun u v k hk => byteOf_andNot u v k hk)
    (fun u _ hu _ => lt_of_le_of_lt Nat.and_le_left hu)
    (fun u v hu _ => by
      rw [Nat.mod_eq_of_lt (lt_of_le_of_lt Nat.and_le_left hu)]
      exact andnot_byte u v hu)
    a b ha hb bytes

theorem notStep_eq (a : Nat → Nat) (ha : ∀ i, a i < 256) (w : Nat) :
    storeWord a w (loadWord a w ^^^ mask64) = fun i =>
      if 8 * w ≤ i ∧ i < 8 * w + 8 then a i ^^^ 255 else a i := by
  funext i
  unfold storeWord
  split
  case isTrue h =>
    rw [byteOf_notMask _ _ (by omega), loadWord_byte a ha w _ (by omega)]
    have hi : 8 * w + (i - 8 * w) = i := by omega
    rw [hi]
  case isFalse h => rfl

theorem notWords_spec (sz : Nat) :
    ∀ (n w : Nat) (a : Nat → Nat), sz - w = n → (∀ i, a i < 256) →
      notWords sz w a = fun i =>
        if 8 * w ≤ i ∧ i < 8 * sz then a i ^^^ 255 else a i := by
  intro n
  induction n with
  | zero =>
    intro w a hn _
    rw [notWords, dif_neg (by omega)]
    funext i
    rw [if_neg (by omega)]
  | succ n ih =>
    intro w a hn ha
    rw [notWords, dif_pos (by omega : w < sz)]
    have hstep := notStep_eq a ha w
    have ha' : ∀ i, (storeWord a w (loadWord a w ^^^ mask64)) i < 256 := by
      intro i
      rw [hstep]
      dsimp only
      split
      case isTrue hcc => exact xor255_lt (ha i)
      case isFalse hcc => exact ha i
    rw [ih (w + 1) _ (by omega) ha', hstep]
    funext i
    dsimp only
    split_ifs <;> first | rfl | omega

theorem notTail_spec (bytes : Nat) :
    ∀ (n i : Nat) (a : Nat → Nat), bytes - i = n →
      notTail bytes i a = fun j =>
        if i ≤ j ∧ j < bytes then a j ^^^ 255 else a j := by
  intro n
  induction n with
  | zero =>
    intro i a hn
    rw [notTail, dif_neg (by omega)]
    funext j
    rw [if_neg (by omega)]
  | succ n ih =>
    intro i a hn
    rw [notTail, dif_pos (by omega : i < bytes), ih (i + 1) _ (by omega)]
    funext j
    dsimp only
    split_ifs <;> first | rfl | omega | simp_all

theorem notBit_spec (a : Nat → Nat) (ha : ∀ i, a i < 256) (bytes : Nat) :
    notBit a bytes = fun i => if i < bytes then a i ^^^ 255 else a i := by
  unfold notBit
  rw [notWords_spec (bytes / 8) (bytes / 8 - 0) 0 a rfl ha]
  rw [notTail_spec bytes (bytes - bytes / 8 * 8) (bytes / 8 * 8) _ rfl]
  funext i
  dsimp only
  split_ifs <;> first | rfl | omega

/-- C10: for every byte count `bytes` — including counts that are not a
multiple of 8 — and every pair of byte buffers, the generic `andBit`,
`orBit`, `andNotBit` and `notBit` operations update every destination byte
at index `idx < bytes` to the bitwise AND / OR / AND-NOT / NOT of the
corresponding input bytes, and touch no byte at index `idx ≥ bytes`: the
64-bit-word main loop plus the byte-wise tail loop together cover exactly
the range `[0, bytes)`. -/
theorem C10_bit_ops_cover_exact_range (a b : Nat → Nat) (bytes : Nat)
    (ha : ∀ i, a i < 256) (hb : ∀ i, b i < 256) (idx : Nat) :
    (idx < bytes →
      andBit a b bytes idx = (a idx &&& b idx) ∧
      orBit a b bytes idx = (a idx ||| b idx) ∧
      andNotBit a b bytes idx = (a idx &&& (b idx ^^^ 255)) ∧
      notBit a bytes idx = (a idx ^^^ 255)) ∧
    (bytes ≤ idx →
      andBit a b bytes idx = a idx ∧
      orBit a b bytes idx = a idx ∧
      andNotBit a b bytes idx = a idx ∧
      notBit a bytes idx = a idx) := by
  have h1 := congrFun (andBit_spec a b ha hb bytes) idx
  have h2 := congrFun (orBit_spec a b ha hb bytes) idx
  have h3 := congrFun (andNotBit_spec a b ha hb bytes) idx
  have h4 := congrFun (notBit_spec a ha bytes) idx
  constructor
  · intro hlt
    rw [if_pos hlt] at h1 h2 h3 h4
    exact ⟨h1, h2, h3, h4⟩
  · intro hge
    rw [if_neg (by omega)] at h1 h2 h3 h4
    exact ⟨h1, h2, h3, h4⟩

/-- Concrete instance of `C10_bit_ops_cover_exact_range`: 13-byte buffers
(one full word plus a 5-byte tail), checked at an index inside the range and
one outside it. -/
theorem C10_bit_ops_witness :
    (∀ i : Nat, (fun j : Nat => (3 * j + 7) % 256) i < 256) ∧
    (∀ i : Nat, (fun j : Nat => (5 * j + 2) % 256) i < 256) ∧
    (andBit (fun j => (3 * j + 7) % 256) (fun j => (5 * j + 2) % 256) 13 9 =
        ((3 * 9 + 7) % 256 &&& (5 * 9 + 2) % 256) ∧
      notBit (fun j => (3 * j + 7) % 256) 13 9 = ((3 * 9 + 7) % 256 ^^^ 255)) ∧
    (andBit (fun j => (3 * j + 7) % 256) (fun j => (5 * j + 2) % 256) 13 20 =
        (3 * 20 + 7) % 256 ∧
      notBit (fun j => (3 * j + 7) % 256) 13 20 = (3 * 20 + 7) % 256) := by
  have hha : ∀ i : Nat, (fun j : Nat => (3 * j + 7) % 256) i < 256 :=
    fun i => Nat.mod_lt _ (by norm_num)
  have hhb : ∀ i : Nat, (fun j : Nat => (5 * j + 2) % 256) i < 256 :=
    fun i => Nat.mod_lt _ (by norm_num)
  have hin := C10_bit_ops_cover_exact_range (fun j => (3 * j + 7) % 256)
    (fun j => (5 * j + 2) % 256) 13 hha hhb 9
  have hout := C10_bit_ops_cover_exact_range (fun j => (3 * j + 7) % 256)
    (fun j => (5 * j + 2) % 256) 13 hha hhb 20
  obtain ⟨hi1, hi2, hi3, hi4⟩ := hin.1 (by decide)
  obtain ⟨ho1, ho2, ho3, ho4⟩ := hout.2 (by decide)
  exact ⟨hha, hhb, ⟨hi1, hi4⟩, ⟨ho1, ho4⟩⟩

end Hwaccel
